import Mathlib

/-!
Verification development for the license-dashboard core
(`src/main.tsx`): the log interpreter / session reconciler
(`parseLogFile`), the analytics aggregator (`computeAnalytics`), the
right-sizing evaluator, and the options-file codec
(`generateOptionsFile` / `importOptionsFile`).

JavaScript strings are modelled as `List Char` (`Str`); JS numbers that
the code only ever uses integrally are modelled as `Int`/`Nat`, and the
few genuinely fractional quantities (durations in minutes, percentages)
as `Rat`.  `new Date(string).getTime()` — a host-environment date
parser — is modelled as an explicit parameter `toTime : Str → Option Int`
(`none` standing for an Invalid Date / `NaN` time value); the claims
settled here do not depend on the concrete host date semantics.
-/

namespace Dashboard

/-- JS strings as lists of UTF-16-ish code points. -/
abbrev Str := List Char

/-- Embed a Lean string literal. -/
def str (s : String) : Str := s.data

/-- The `\s` character class of JS regexes, restricted to the ASCII
whitespace characters (the non-ASCII Unicode space characters behave
the same way in JS but never occur in the inputs considered here). -/
def isWsChar (c : Char) : Bool :=
  c = ' ' || c = '\t' || c = '\n' || c = '\r' || c = '\x0b' || c = '\x0c'

/-- The `\d` character class. -/
def isDigitChar (c : Char) : Bool :=
  48 ≤ c.toNat && c.toNat ≤ 57

/-- The `\w` character class: `[A-Za-z0-9_]`. -/
def isWordChar (c : Char) : Bool :=
  (65 ≤ c.toNat && c.toNat ≤ 90) || (97 ≤ c.toNat && c.toNat ≤ 122) ||
    isDigitChar c || c = '_'

/-- ASCII lower-casing, as `String.prototype.toLowerCase` acts on the
ASCII range (the inputs considered here are ASCII). -/
def jsLowerChar (c : Char) : Char :=
  if 65 ≤ c.toNat && c.toNat ≤ 90 then Char.ofNat (c.toNat + 32) else c

/-- ASCII upper-casing, as `String.prototype.toUpperCase` acts on the
ASCII range. -/
def jsUpperChar (c : Char) : Char :=
  if 97 ≤ c.toNat && c.toNat ≤ 122 then Char.ofNat (c.toNat - 32) else c

def jsLower (s : Str) : Str := s.map jsLowerChar

def jsUpper (s : Str) : Str := s.map jsUpperChar

/-- `String.prototype.includes`. -/
def strContains (hay pat : Str) : Bool :=
  match hay with
  | [] => pat.isEmpty
  | _ :: t => pat.isPrefixOf hay || strContains t pat

/-- `String.prototype.startsWith`. -/
def strStartsWith (s pre : Str) : Bool := pre.isPrefixOf s

/-- `String.prototype.trim`. -/
def jsTrim (s : Str) : Str :=
  ((s.dropWhile isWsChar).reverse.dropWhile isWsChar).reverse

/-- `String.prototype.split('\n')`: split at every occurrence of the
separator character, keeping empty pieces. -/
def splitCh (c : Char) : Str → List Str
  | [] => [[]]
  | d :: t =>
    if d = c then [] :: splitCh c t
    else
      match splitCh c t with
      | [] => [[d]]
      | h :: r => (d :: h) :: r

/-- `content.split(/\r?\n/)`: split at `\n` or `\r\n`. -/
def splitNl : Str → List Str
  | [] => [[]]
  | '\r' :: '\n' :: t => [] :: splitNl t
  | c :: t =>
    if c = '\n' then [] :: splitNl t
    else
      match splitNl t with
      | [] => [[c]]
      | h :: r => (c :: h) :: r

/-- `line.split(/\s+/)` on an already-trimmed line: the maximal runs of
non-whitespace characters, in order.  (On a string with leading or
trailing whitespace JS would additionally produce empty fragments; the
single use site trims first, so those cases never arise.) -/
def splitWsAux : Str → Str → List Str
  | [], acc => if acc.isEmpty then [] else [acc.reverse]
  | c :: t, acc =>
    if isWsChar c then
      if acc.isEmpty then splitWsAux t [] else acc.reverse :: splitWsAux t []
    else splitWsAux t (c :: acc)

def splitWs (s : Str) : List Str := splitWsAux s []

/-- `Array.prototype.join(sep)` / template-literal concatenation of
tokens separated by single characters. -/
def joinSep (sep : Str) : List Str → Str
  | [] => []
  | [x] => x
  | x :: xs => x ++ sep ++ joinSep sep xs

/-- Value of a decimal digit character. -/
def digitVal (c : Char) : Nat := c.toNat - 48

/-- Decimal digit character of a value `< 10`. -/
def digitChar (d : Nat) : Char := Char.ofNat (48 + d)

/-- Value of a hexadecimal digit character, if it is one. -/
def hexVal (c : Char) : Option Nat :=
  if 48 ≤ c.toNat && c.toNat ≤ 57 then some (c.toNat - 48)
  else if 97 ≤ c.toNat && c.toNat ≤ 102 then some (c.toNat - 87)
  else if 65 ≤ c.toNat && c.toNat ≤ 70 then some (c.toNat - 55)
  else none

/-- Longest decimal-digit prefix, `none` when empty (a `NaN` result). -/
def decPrefix (s : Str) : Option Nat :=
  let ds := s.takeWhile isDigitChar
  if ds.isEmpty then none
  else some (ds.foldl (fun a c => a * 10 + digitVal c) 0)

/-- Accumulate hex digits until a non-hex character. -/
def hexDigitsFold : Str → Nat → Nat
  | [], a => a
  | c :: t, a =>
    match hexVal c with
    | some v => hexDigitsFold t (a * 16 + v)
    | none => a

/-- Longest hex-digit prefix, `none` when empty. -/
def hexPrefix : Str → Option Nat
  | [] => none
  | c :: t =>
    match hexVal c with
    | none => none
    | some d => some (hexDigitsFold t d)

/-- Magnitude part of JS `parseInt` with no radix argument: a `0x`/`0X`
prefix switches to hexadecimal, otherwise the longest decimal-digit
prefix is read; no digits at all gives `NaN` (`none`). -/
def parseIntMag : Str → Option Nat
  | c1 :: c2 :: t =>
    if c1 = '0' ∧ (c2 = 'x' ∨ c2 = 'X') then hexPrefix t
    else decPrefix (c1 :: c2 :: t)
  | s => decPrefix s

/-- JS `parseInt(s)` (radix unspecified): leading whitespace skipped,
optional sign, then `parseIntMag`; `none` models a `NaN` result. -/
def parseIntJS (s : Str) : Option Int :=
  match s.dropWhile isWsChar with
  | '-' :: t => (parseIntMag t).map (fun n => -(n : Int))
  | '+' :: t => (parseIntMag t).map (fun n => (n : Int))
  | t => (parseIntMag t).map (fun n => (n : Int))

/-- Decimal rendering of a natural number, as a JS template literal
renders an integral number. -/
def natToStr (n : Nat) : Str :=
  if n = 0 then ['0'] else ((Nat.digits 10 n).reverse.map digitChar)

/-- Decimal rendering of an integer. -/
def intToStr (i : Int) : Str :=
  if i < 0 then '-' :: natToStr i.natAbs else natToStr i.toNat

/-- First binding of a key in a JS-object-as-association-list (JS
objects keep string keys in insertion order; none of the keys used by
the dashboard are array-index-like, whose order JS would special-case). -/
def alistGet [DecidableEq κ] (k : κ) : List (κ × α) → Option α
  | [] => none
  | (k', v) :: t => if k' = k then some v else alistGet k t

/-- `obj[k] = v`: overwrite in place, or append a new binding. -/
def alistSet [DecidableEq κ] (k : κ) (v : α) : List (κ × α) → List (κ × α)
  | [] => [(k, v)]
  | (k', v') :: t => if k' = k then (k, v) :: t else (k', v') :: alistSet k v t

/-- `delete obj[k]`. -/
def alistRemove [DecidableEq κ] (k : κ) : List (κ × α) → List (κ × α)
  | [] => []
  | (k', v') :: t => if k' = k then t else (k', v') :: alistRemove k t

/-- JS code-unit-wise string comparison `a < b` (the default
`Array.prototype.sort` order for strings). -/
def strLtB : Str → Str → Bool
  | [], [] => false
  | [], _ :: _ => true
  | _ :: _, [] => false
  | a :: as, b :: bs =>
    if a.toNat < b.toNat then true
    else if b.toNat < a.toNat then false
    else strLtB as bs

/-! ### Simulators for the concrete regexes of `parseLogFile`

Each regex of the source is compiled by hand into a deterministic
matcher.  Greedy character-class runs followed by a literal the class
excludes need no backtracking; the one real backtracking point —
`\d{1,2}` followed by a literal — is expanded into its two cases, and
`(\S+)@(\S+)` into "split the non-whitespace run at the last `@` that
leaves both sides non-empty". -/

/-- The `[\w\s.-]` class of the daemon-name group. -/
def daemonChar (c : Char) : Bool :=
  isWordChar c || isWsChar c || c = '.' || c = '-'

/-- `\d{2}:\d{2}` (minutes and seconds of the time token). -/
def matchMMSS : Str → Option (Str × Str)
  | m1 :: m2 :: ':' :: s1 :: s2 :: rest =>
    if isDigitChar m1 && isDigitChar m2 && isDigitChar s1 && isDigitChar s2
    then some ([m1, m2, ':', s1, s2], rest) else none
  | _ => none

/-- `(\d{1,2}:\d{2}:\d{2})`: greedy two-digit hour with one-digit
fallback. -/
def matchTimeTok : Str → Option (Str × Str)
  | a :: b :: rest =>
    if isDigitChar a && isDigitChar b then
      match rest with
      | ':' :: r => (matchMMSS r).map (fun p => (a :: b :: ':' :: p.1, p.2))
      | _ => none
    else if isDigitChar a && b = ':' then
      (matchMMSS rest).map (fun p => (a :: ':' :: p.1, p.2))
    else none
  | _ => none

/-- `/^\s*(\d{1,2}:\d{2}:\d{2})\s+\(([\w\s.-]+)\)\s+(.*)$/` — the line
classifier.  Returns `(time, daemon, message)`.  `.` does not match a
line terminator, so a stray `\r` inside the message part makes the
anchored regex fail. -/
def timeLineMatch (line : Str) : Option (Str × Str × Str) :=
  match matchTimeTok (line.dropWhile isWsChar) with
  | none => none
  | some (time, r0) =>
    match r0 with
    | c :: _ =>
      if !isWsChar c then none else
      match r0.dropWhile isWsChar with
      | '(' :: r1 =>
        let daemon := r1.takeWhile daemonChar
        if daemon.isEmpty then none else
        match r1.drop daemon.length with
        | ')' :: r2 =>
          match r2 with
          | c2 :: _ =>
            if !isWsChar c2 then none else
            let msg := r2.dropWhile isWsChar
            if msg.any (fun x => x = '\n' || x = '\r') then none
            else some (time, daemon, msg)
          | [] => none
        | _ => none
      | _ => none
    | [] => none

/-- `\d{1,2}` followed by a literal `/` (consumed). -/
def matchD12Slash : Str → Option (Str × Str)
  | a :: b :: rest =>
    if isDigitChar a && isDigitChar b then
      match rest with
      | '/' :: r => some ([a, b], r)
      | _ => none
    else if isDigitChar a && b = '/' then some ([a], rest)
    else none
  | _ => none

/-- `\d{4}`. -/
def matchYear4 : Str → Option (Str × Str)
  | a :: b :: c :: d :: rest =>
    if isDigitChar a && isDigitChar b && isDigitChar c && isDigitChar d
    then some ([a, b, c, d], rest) else none
  | _ => none

/-- Match `(\d{1,2}\/\d{1,2}\/\d{4})` anchored at the start of `s`. -/
def matchDateAt (s : Str) : Option Str :=
  match matchD12Slash s with
  | none => none
  | some (m, r1) =>
    match matchD12Slash r1 with
    | none => none
    | some (d, r2) =>
      match matchYear4 r2 with
      | none => none
      | some (y, _) => some (m ++ '/' :: d ++ '/' :: y)

/-- Leftmost search for the date pattern (`String.prototype.match`). -/
def dateSearch : Str → Option Str
  | [] => none
  | c :: t =>
    match matchDateAt (c :: t) with
    | some d => some d
    | none => dateSearch t

/-- Split a non-whitespace run at the last `@` that leaves a non-empty
user before it and a non-empty host after it — the backtracking
behaviour of `(\S+)@(\S+)`. -/
def lastAtSplit (run : Str) : Option (Str × Str) :=
  let cands := (List.range run.length).filterMap fun i =>
    if run.getD i ' ' = '@' ∧ 1 ≤ i ∧ i + 1 < run.length then some i else none
  match cands.getLast? with
  | none => none
  | some i => some (run.take i, run.drop (i + 1))

/-- `\s+"?([^"\s]+)"?\s+(\S+)@(\S+)` — the tail of the OUT/IN
extraction regexes, matched right after the marker. -/
def matchFUH (s : Str) : Option (Str × Str × Str) :=
  match s with
  | [] => none
  | c :: _ =>
    if !isWsChar c then none else
    let s1 := s.dropWhile isWsChar
    let s2 := match s1 with | '"' :: t => t | _ => s1
    let feat := s2.takeWhile (fun x => x ≠ '"' && !isWsChar x)
    if feat.isEmpty then none else
    let s3 := s2.drop feat.length
    let s4 := match s3 with | '"' :: t => t | _ => s3
    match s4 with
    | [] => none
    | c2 :: _ =>
      if !isWsChar c2 then none else
      let run := (s4.dropWhile isWsChar).takeWhile (fun x => !isWsChar x)
      match lastAtSplit run with
      | none => none
      | some (u, h) => some (feat, u, h)

/-- `\s+\((.*)\)` — the trailing reason group of the DENIED regex,
matched after the user\@host run: mandatory whitespace, a literal `(`,
then everything up to the last `)` before any line terminator. -/
def matchDeniedTail (s : Str) : Option Str :=
  match s with
  | [] => none
  | c :: _ =>
    if !isWsChar c then none else
    match s.dropWhile isWsChar with
    | '(' :: t =>
      let t1 := t.takeWhile (fun x => x ≠ '\n' && x ≠ '\r')
      match (t1.reverse.dropWhile (fun x => x ≠ ')')) with
      | ')' :: innerRev => some innerRev.reverse
      | _ => none
    | _ => none

/-- The DENIED extraction tail: feature, user, host, then the reason;
the host run must be followed by the parenthesised reason. -/
def matchFUHReason (s : Str) : Option (Str × Str × Str × Str) :=
  match s with
  | [] => none
  | c :: _ =>
    if !isWsChar c then none else
    let s1 := s.dropWhile isWsChar
    let s2 := match s1 with | '"' :: t => t | _ => s1
    let feat := s2.takeWhile (fun x => x ≠ '"' && !isWsChar x)
    if feat.isEmpty then none else
    let s3 := s2.drop feat.length
    let s4 := match s3 with | '"' :: t => t | _ => s3
    match s4 with
    | [] => none
    | c2 :: _ =>
      if !isWsChar c2 then none else
      let s5 := s4.dropWhile isWsChar
      let run := s5.takeWhile (fun x => !isWsChar x)
      match lastAtSplit run with
      | none => none
      | some (u, h) =>
        match matchDeniedTail (s5.drop run.length) with
        | none => none
        | some reason => some (feat, u, h, reason)

/-- `\s+"?([^"\s]+)"?` — the UNSUPPORTED extraction tail (the trailing
optional quote always matches). -/
def matchFeatOnly (s : Str) : Option Str :=
  match s with
  | [] => none
  | c :: _ =>
    if !isWsChar c then none else
    let s1 := s.dropWhile isWsChar
    let s2 := match s1 with | '"' :: t => t | _ => s1
    let feat := s2.takeWhile (fun x => x ≠ '"' && !isWsChar x)
    if feat.isEmpty then none else some feat

/-- Leftmost regex search for `marker` followed by a tail matched by
`parse`: try every occurrence of the literal marker left to right. -/
def searchAfter (marker : Str) (parse : Str → Option α) : Str → Option α
  | [] => none
  | c :: t =>
    if marker.isPrefixOf (c :: t) then
      match parse ((c :: t).drop marker.length) with
      | some r => some r
      | none => searchAfter marker parse t
    else searchAfter marker parse t

/-! ### Event interpreter and session reconciler (`parseLogFile`) -/

/-- The `type` union of `LogEntry` in the source. -/
inductive EntryType where
  | OUT | IN | DENIED | UNSUPPORTED | TIMESTAMP | SLOG | ERROR | INFO
  | RESERVING | REMOVING | REREAD | VERSION
  deriving DecidableEq, Repr

/-- One interpreted line.  `date` is assigned unconditionally in the
loop (line 421 of the source), so it is not optional here. -/
structure LogEntry where
  time : Str
  date : Str
  daemon : Str
  type : EntryType
  user : Option Str
  host : Option Str
  feature : Option Str
  reason : Option Str
  raw : Str
  deriving DecidableEq, Repr

/-- A JS `Date`'s time value: `none` models an Invalid Date (`NaN`). -/
abbrev JSDate := Option Int

/-- A reconstructed session.  `endTime` embeds the source's `end` field
(a Lean keyword); `duration` is in minutes. -/
structure Session where
  user : Str
  host : Str
  feature : Str
  start : JSDate
  endTime : Option JSDate
  duration : Option Rat
  deriving DecidableEq, Repr

/-- The mutable state threaded through the per-line loop of
`parseLogFile`: the sticky current date, the open-session map (a JS
object keyed by `user@host:feature`), and the growing output lists.
The write-only metadata accumulators other than `currentDate`
(server name, version, ports, pid, path) are omitted: no claim
mentions them and they feed back into nothing else. -/
structure ParseState where
  currentDate : Str
  openSessions : List (Str × Session)
  sessions : List Session
  entries : List LogEntry
  deriving Repr

/-- The final event-kind of one classified line, exactly as the
sequence of `entry.type` assignments in the source computes it:
the TIMESTAMP and VERSION markers assign first, and the
OUT/IN/DENIED/UNSUPPORTED/RESERVING/ERROR cascade (an `else if`
chain) overrides them; `INFO` is the initial value. -/
def classifyKind (message : Str) : EntryType :=
  let base :=
    if strContains message (str "FLEXnet Licensing") then EntryType.VERSION
    else if strContains message (str "TIMESTAMP") then EntryType.TIMESTAMP
    else EntryType.INFO
  if strContains message (str "OUT:") then .OUT
  else if strContains message (str "IN:") then .IN
  else if strContains message (str "DENIED:") then .DENIED
  else if strContains message (str "UNSUPPORTED") then .UNSUPPORTED
  else if strContains message (str "RESERVING") then .RESERVING
  else if strContains (jsLower message) (str "error") ||
          strContains message (str "EXITING") then .ERROR
  else base

/-- The sticky-date update of one line: `some d` when the line matches
the base grammar, its message contains the TIMESTAMP marker and a
`M/D/YYYY`-shaped date is found. -/
def lineDateUpdate (line : Str) : Option Str :=
  match timeLineMatch line with
  | none => none
  | some (_, _, message) =>
    if strContains message (str "TIMESTAMP") then dateSearch message
    else none

/-- Process one raw line, mirroring the body of the
`lines.forEach` loop of `parseLogFile`.  `toTime` stands for the host
`new Date(string).getTime()` and `currentYear` for
`new Date().getFullYear()`. -/
def parseLine (toTime : Str → JSDate) (currentYear : Nat)
    (st : ParseState) (line : Str) : ParseState :=
  match timeLineMatch line with
  | none => st
  | some (time, daemon, message) =>
    let cd := match lineDateUpdate line with
              | some d => d
              | none => st.currentDate
    let dateCtx : Str :=
      (if cd.isEmpty then str "1/1/" ++ natToStr currentYear else cd)
    let e0 : LogEntry :=
      { time, date := cd, daemon, type := classifyKind message,
        user := none, host := none, feature := none, reason := none,
        raw := line }
    if strContains message (str "OUT:") then
      match searchAfter (str "OUT:") matchFUH message with
      | none =>
        { st with currentDate := cd, entries := st.entries ++ [e0] }
      | some (f, u, h) =>
        let key := u ++ ['@'] ++ h ++ [':'] ++ f
        let startT := toTime (dateCtx ++ [' '] ++ time)
        let s : Session :=
          { user := u, host := h, feature := f, start := startT,
            endTime := none, duration := none }
        { st with
            currentDate := cd,
            openSessions := alistSet key s st.openSessions,
            entries := st.entries ++
              [{ e0 with feature := some f, user := some u, host := some h }] }
    else if strContains message (str "IN:") then
      match searchAfter (str "IN:") matchFUH message with
      | none =>
        { st with currentDate := cd, entries := st.entries ++ [e0] }
      | some (f, u, h) =>
        let key := u ++ ['@'] ++ h ++ [':'] ++ f
        let e1 := { e0 with feature := some f, user := some u, host := some h }
        match alistGet key st.openSessions with
        | none =>
          { st with currentDate := cd, entries := st.entries ++ [e1] }
        | some sess =>
          -- `session.duration = (endTime - start) / 60000` in minutes;
          -- the exact rational is written `mkRat (b - a) 60000`, which
          -- equals `((b - a : Int) : Rat) / 60000` (`Rat.mkRat_eq_div`)
          -- but evaluates under kernel reduction.
          let endT := toTime (dateCtx ++ [' '] ++ time)
          let dur : Option Rat :=
            match endT, sess.start with
            | some b, some a => some (mkRat (b - a) 60000)
            | _, _ => none
          let closed := { sess with endTime := some endT, duration := dur }
          let keep : Bool :=
            match dur with
            | some d => decide (0 ≤ d)
            | none => false
          { st with
              currentDate := cd,
              openSessions := alistRemove key st.openSessions,
              sessions := if keep then st.sessions ++ [closed] else st.sessions,
              entries := st.entries ++ [e1] }
    else if strContains message (str "DENIED:") then
      match searchAfter (str "DENIED:") matchFUHReason message with
      | none =>
        { st with currentDate := cd, entries := st.entries ++ [e0] }
      | some (f, u, h, reason) =>
        { st with
            currentDate := cd,
            entries := st.entries ++
              [{ e0 with
                   feature := some f, user := some u, host := some h,
                   reason := some reason }] }
    else if strContains message (str "UNSUPPORTED") then
      match searchAfter (str "UNSUPPORTED:") matchFeatOnly message with
      | none =>
        { st with currentDate := cd, entries := st.entries ++ [e0] }
      | some f =>
        { st with
            currentDate := cd,
            entries := st.entries ++ [{ e0 with feature := some f }] }
    else
      { st with currentDate := cd, entries := st.entries ++ [e0] }

/-- The parts of the return value of `parseLogFile` that the claims
are about (the remaining metadata fields are independent write-only
accumulators, and the aggregate analytics are exposed separately as
`computeConcurrentUsage` / `computeCoUsage`). -/
structure ParseResult where
  startDate : Str
  entries : List LogEntry
  sessions : List Session
  denials : List LogEntry
  deriving Repr

/-- `parseLogFile` — split into lines on `\r?\n`, run the per-line
interpreter, and publish the accumulated results. -/
def parseLogFile (toTime : Str → JSDate) (currentYear : Nat)
    (content : Str) : ParseResult :=
  let st := (splitNl content).foldl (parseLine toTime currentYear)
    { currentDate := [], openSessions := [], sessions := [], entries := [] }
  { startDate := st.currentDate,
    entries := st.entries,
    sessions := st.sessions,
    denials := st.entries.filter (fun e => e.type = .DENIED) }

/-! ### Analytics aggregator: concurrency sweep and co-usage

`computeAnalytics` is a bundle of independent sub-computations; the two
the claims are about — the daily peak-concurrency sweep
(`concurrentUsage`) and the feature co-usage pairs (`featureCoUsage`) —
are embedded here as standalone functions of the session list.  The
remaining rollups are not mentioned by any claim and are omitted. -/

/-- A `{time, delta}` sweep event. -/
structure SweepEvent where
  time : Int
  delta : Int
  deriving DecidableEq, Repr

/-- Insert `x` after every element `y` with `before x y = false` —
the insertion step of a stable comparator sort (`before x y` embeds
"the comparator puts `x` strictly before `y`"). -/
def insBy (before : α → α → Bool) (x : α) : List α → List α
  | [] => [x]
  | y :: ys => if before x y then x :: y :: ys else y :: insBy before x ys

/-- `Array.prototype.sort(cmp)`: a stable sort (as ES2019 requires) —
elements are inserted left to right, each after all previously placed
elements the comparator does not order it strictly before. -/
def jsSortBy (before : α → α → Bool) (l : List α) : List α :=
  l.foldl (fun acc x => insBy before x acc) []

/-- `events.sort((a, b) => a.time - b.time)` (stable). -/
def sortByTime (l : List SweepEvent) : List SweepEvent :=
  jsSortBy (fun a b => a.time < b.time) l

/-- `getTime()` of a date assumed valid (an Invalid Date would give
`NaN`, which `Int` cannot carry; every use is guarded by a validity
filter or hypothesis). -/
def jdTime (d : JSDate) : Int := d.getD 0

/-- The validity filter of `computeAnalytics`'s concurrency sweep:
`s.end && !isNaN(s.start.getTime()) && !isNaN(s.end.getTime())`. -/
def validSession (s : Session) : Bool :=
  match s.endTime, s.start with
  | some (some _), some _ => true
  | _, _ => false

/-- The `+1`/`−1` event list of `computeAnalytics` (start and end of
every valid session, in session order). -/
def analyticsSweepEvents (ss : List Session) : List SweepEvent :=
  (ss.filter validSession).flatMap fun s =>
    [⟨jdTime s.start, 1⟩, ⟨jdTime (s.endTime.getD none), -1⟩]

/-- UTC calendar-day index of a time value — the embedding of
`new Date(t).toISOString().split('T')[0]` (the ISO day string is in
order-preserving bijection with this index). -/
def dayKey (t : Int) : Int := Int.fdiv t 86400000

/-- The daily peak-concurrency map: scan the sorted events keeping a
running sum, and record per day the maximum running sum seen
(`concurrentMap[day] = Math.max(concurrentMap[day] || 0, concurrent)`). -/
def concurrentMapFold (evs : List SweepEvent) : List (Int × Int) :=
  (evs.foldl
    (fun (acc : List (Int × Int) × Int) e =>
      let c := acc.2 + e.delta
      let old := (alistGet (dayKey e.time) acc.1).getD 0
      (alistSet (dayKey e.time) (max old c) acc.1, c))
    ([], 0)).1

/-- `concurrentUsage`: the daily peak map as a day-sorted list. -/
def computeConcurrentUsage (ss : List Session) : List (Int × Int) :=
  jsSortBy (fun a b => a.1 < b.1)
    (concurrentMapFold (sortByTime (analyticsSweepEvents ss)))

/-- The per-feature sweep of the right-sizing panel: a `+1` event for
every session start and, when the session has an end, a `−1` event. -/
def featureSweepEvents (ss : List Session) : List SweepEvent :=
  ss.flatMap fun s =>
    ⟨jdTime s.start, 1⟩ ::
      (match s.endTime with
       | some e => [⟨jdTime e, -1⟩]
       | none => [])

/-- Running sums of the deltas (`concurrent += e.delta` at each event). -/
def runningSums : List SweepEvent → Int → List Int
  | [], _ => []
  | e :: t, c => (c + e.delta) :: runningSums t (c + e.delta)

/-- The concurrency sample series of one feature's sessions: the
running sum recorded at every sorted event. -/
def concurrentSamples (ss : List Session) : List Int :=
  runningSums (sortByTime (featureSweepEvents ss)) 0

/-- `featurePeak`: maximum running sum, starting from 0. -/
def featurePeak (ss : List Session) : Int :=
  (concurrentSamples ss).foldl max 0

/-- The sorted concurrency sample series of one feature
(`.sort((a, b) => a - b)`). -/
def sortedSamples (ss : List Session) : List Int :=
  jsSortBy (fun a b => a < b) (concurrentSamples ss)

/-- `Math.floor(n * 0.5)`. -/
def idx50 (n : Nat) : Nat := n / 2

/-- `Math.floor(n * 0.9)`: for every list length a double-precision
`n * 0.9` floors to `⌊9n/10⌋` (the rounding error is far below the
distance to the next integer), so the index is embedded exactly. -/
def idx90 (n : Nat) : Nat := 9 * n / 10

/-- `concurrentSamples[Math.floor(len * 0.5)] || 0` — a missing index
gives `undefined || 0 = 0`, and a present `0` sample also gives `0`,
so this is exactly `getD`. -/
def p50Sample (ss : List Session) : Int :=
  (sortedSamples ss).getD (idx50 (sortedSamples ss).length) 0

/-- `concurrentSamples[Math.floor(len * 0.9)] || 0`. -/
def p90Sample (ss : List Session) : Int :=
  (sortedSamples ss).getD (idx90 (sortedSamples ss).length) 0

/-! #### Co-usage -/

/-- Add to a JS `Set` (insertion-ordered, deduplicating). -/
def setAdd [DecidableEq α] (x : α) (l : List α) : List α :=
  if x ∈ l then l else l ++ [x]

/-- `userFeatures`: per user, the insertion-ordered set of distinct
features of their sessions. -/
def userFeatureSets (ss : List Session) : List (Str × List Str) :=
  ss.foldl
    (fun acc s =>
      match alistGet s.user acc with
      | none => alistSet s.user [s.feature] acc
      | some fs => alistSet s.user (setAdd s.feature fs) acc)
    []

/-- `Array.from(set).sort()`: ascending in the default comparator's
code-unit-wise string order. -/
def sortStrAsc (l : List Str) : List Str :=
  jsSortBy strLtB l

/-- The `i < j` double loop over a sorted feature array, producing the
labels `arr[i] + " + " + arr[j]` in loop order. -/
def pairLabels : List Str → List Str
  | [] => []
  | a :: rest => rest.map (fun b => a ++ str " + " ++ b) ++ pairLabels rest

/-- `pairCounts[label] = (pairCounts[label] || 0) + 1`. -/
def bumpCount (lbl : Str) (acc : List (Str × Nat)) : List (Str × Nat) :=
  match alistGet lbl acc with
  | none => alistSet lbl 1 acc
  | some n => alistSet lbl (n + 1) acc

/-- The pair-counter object, filled user by user in insertion order. -/
def pairCounts (ss : List Session) : List (Str × Nat) :=
  (userFeatureSets ss).foldl
    (fun acc uf => (pairLabels (sortStrAsc uf.2)).foldl
      (fun a lbl => bumpCount lbl a) acc)
    []

/-- `featureCoUsage`: pair counts sorted by count descending (stable,
no further tie-break: `sort((a, b) => b.count - a.count)`), top 10. -/
def computeFeatureCoUsage (ss : List Session) : List (Str × Nat) :=
  (jsSortBy (fun a b => b.2 < a.2) (pairCounts ss)).take 10

/-! ### Cost / right-sizing evaluator

The classification block of the right-sizing panel, per feature:
inputs are the feature's session list, the externally supplied seat
count (`licenseSeats[f] || 0`) and the feature's checkout/denial
counts.  JS numbers are embedded as `Rat` where fractional (the
denial-rate and utilization percentages); the float constants `0.9`
and `0.4` are embedded as the exact rationals they stand for, which
agrees with double arithmetic at every reachable comparison. -/

inductive SizeCategory where
  | overUtilized | atCapacity | overProvisioned | underUtilized
  | rightSized | needsSeatData
  deriving DecidableEq, Repr

/-- `denialRate = checkouts + denials > 0 ? (denials / (checkouts + denials)) * 100 : 0`;
the exact rational `(denials / (checkouts + denials)) * 100` is written
as the single fraction `mkRat (100 * denials) (checkouts + denials)`
(the same value, but kernel-evaluable — see `denialRate_eq`). -/
def denialRate (checkouts denials : Nat) : Rat :=
  if 0 < checkouts + denials
  then mkRat (100 * denials) (checkouts + denials)
  else 0

/-- The six utilization flags and the chosen badge, exactly as computed
per feature in the right-sizing panel.  Fractional JS expressions are
written as single exact fractions so that they evaluate:
`utilizationPct = (peak / totalSeats) * 100` as
`mkRat (100 * peak) totalSeats.toNat`,
`totalSeats * 0.9` as `mkRat (9 * totalSeats) 10`, and
`Math.ceil(featurePeak * 0.4)` as `Rat.ceil (mkRat (2 * peak) 5)` —
each the same rational as the float expression at every reachable
comparison. -/
def rightSizing (ss : List Session) (totalSeats : Int)
    (checkouts denials : Nat) : SizeCategory :=
  let peak := featurePeak ss
  let dr := denialRate checkouts denials
  let hasSeats := 0 < totalSeats
  let unusedSeats : Int := if hasSeats then totalSeats - peak else 0
  let utilizationPct : Rat :=
    if hasSeats then mkRat (100 * peak) totalSeats.toNat else 0
  let p90 := p90Sample ss
  let isOverUtilized := 3 < dr ∧ (¬hasSeats ∨ totalSeats ≤ peak)
  let isAtCapacity := ¬isOverUtilized ∧ hasSeats ∧
    mkRat (9 * totalSeats) 10 ≤ (peak : Rat) ∧ 0 < totalSeats
  let isOverProvisioned := ¬isOverUtilized ∧ ¬isAtCapacity ∧ hasSeats ∧
    2 ≤ unusedSeats ∧ utilizationPct < 75
  let isUnderUtilized := ¬isOverUtilized ∧ ¬isAtCapacity ∧
    ¬isOverProvisioned ∧ 3 ≤ peak ∧
    p90 ≤ Rat.ceil (mkRat (2 * peak) 5) ∧ dr = 0
  if isOverUtilized then .overUtilized
  else if isAtCapacity then .atCapacity
  else if isOverProvisioned then .overProvisioned
  else if isUnderUtilized then .underUtilized
  else if hasSeats then .rightSized
  else .needsSeatData

/-! ### Options codec (`generateOptionsFile` / `importOptionsFile`)

The structured `OptionsModel` is the React state quintuple
(`optTimeoutEnabled`, `optTimeout`, `optFeatureTimeouts`, `optGroups`,
`optRules`) plus `customUsers`.  `targetType` is a string at runtime
(the import casts the uppercased raw token with `as any`), so it is
embedded as `Str`.  Export's two host inputs — the generation date and
the log's server name, both only ever placed inside `#` comment
lines — are passed as parameters. -/

structure FeatureTimeout where
  feature : Str
  seconds : Int
  deriving DecidableEq, Repr

structure OptGroup where
  name : Str
  users : List Str
  deriving DecidableEq, Repr

/-- The `type` union of a rule (`'MAX'` is the seat-cap kind). -/
inductive RuleType where
  | MAX | RESERVE | INCLUDE | EXCLUDE | INCLUDE_BORROW | EXCLUDE_BORROW
  deriving DecidableEq, Repr

def ruleTypeStr : RuleType → Str
  | .MAX => str "MAX"
  | .RESERVE => str "RESERVE"
  | .INCLUDE => str "INCLUDE"
  | .EXCLUDE => str "EXCLUDE"
  | .INCLUDE_BORROW => str "INCLUDE_BORROW"
  | .EXCLUDE_BORROW => str "EXCLUDE_BORROW"

structure OptRule where
  type : RuleType
  count : Int
  feature : Str
  groupOrUser : Str
  targetType : Str
  versionFilter : Str
  deriving DecidableEq, Repr

structure OptionsModel where
  timeoutEnabled : Bool
  timeout : Int
  featureTimeouts : List FeatureTimeout
  groups : List OptGroup
  rules : List OptRule
  customUsers : List Str
  deriving DecidableEq, Repr

/-- `Math.round` (half away from zero is JS's half-up toward `+∞`). -/
def jsRound (q : Rat) : Int := Rat.floor (q + 1 / 2)

/-- The `formatDuration` helper (minutes to `"Hh Mm"`); `NaN` cannot
arise in the `Rat` embedding. -/
def formatDuration (mins : Rat) : Str :=
  if mins = 0 then str "0m"
  else if mins < 60 then intToStr (jsRound mins) ++ str "m"
  else
    let hrs := Rat.floor (mins / 60)
    let m := jsRound (mins - 60 * hrs)
    intToStr hrs ++ str "h " ++ intToStr m ++ str "m"

/-- One rendered rule line: CAP(`MAX`)/`RESERVE` rules carry the count
field, the other kinds omit it; a non-empty version filter is rendered
as a `:SWVERSION=` suffix on the feature token. -/
def ruleLine (r : OptRule) : Str :=
  let feat :=
    if r.versionFilter.isEmpty then r.feature
    else r.feature ++ str ":SWVERSION=" ++ r.versionFilter
  if r.type = .MAX ∨ r.type = .RESERVE then
    ruleTypeStr r.type ++ [' '] ++ intToStr r.count ++ [' '] ++ feat ++
      [' '] ++ r.targetType ++ [' '] ++ r.groupOrUser
  else
    ruleTypeStr r.type ++ [' '] ++ feat ++ [' '] ++ r.targetType ++
      [' '] ++ r.groupOrUser

/-- The `lines` array built by `generateOptionsFile`, in push order. -/
def generateOptionsLines (m : OptionsModel) (dateStr serverName : Str) :
    List Str :=
  ([str "# SolidNetWork License Options File (sw_d.opt)",
    str "# Generated by SNL License Dashboard · " ++ dateStr,
    str "# Server: " ++ serverName,
    []])
  ++ (if m.timeoutEnabled then
        [str "# Return idle licenses after " ++
           formatDuration ((m.timeout : Rat) / 60) ++ str " of inactivity",
         str "TIMEOUTALL " ++ intToStr m.timeout]
      else [str "# No global idle timeout configured"])
  ++ (if 0 < m.featureTimeouts.length then
        [[], str "# Per-feature idle timeouts (override global)"] ++
          m.featureTimeouts.map
            (fun ft => str "TIMEOUT " ++ ft.feature ++ [' '] ++
              intToStr ft.seconds)
      else [])
  ++ [[]]
  ++ (if 0 < m.groups.length then
        [str "# User Groups"] ++
          m.groups.filterMap
            (fun g =>
              if 0 < g.users.length then
                some (str "GROUP " ++ g.name ++ [' '] ++ joinSep [' '] g.users)
              else none)
          ++ [[]]
      else [])
  ++ (if 0 < m.rules.length then
        [str "# License Rules"] ++ m.rules.map ruleLine
      else [])

/-- `generateOptionsFile`: the rendered text (`lines.join('\n')`). -/
def generateOptionsFile (m : OptionsModel) (dateStr serverName : Str) :
    Str :=
  joinSep ['\n'] (generateOptionsLines m dateStr serverName)

/-- `parseInt(x) || dflt`: both a `NaN` and a parsed `0` fall back. -/
def jsOrInt (v : Option Int) (dflt : Int) : Int :=
  match v with
  | some x => if x = 0 then dflt else x
  | none => dflt

/-- Leftmost case-insensitive search for `:SWVERSION=` followed by at
least one digit (`/:SWVERSION=(\d+)/i`), capturing the digit run. -/
def swversionAt (s : Str) : Option Str :=
  if jsUpper (s.take 11) = str ":SWVERSION=" then
    let ds := (s.drop 11).takeWhile isDigitChar
    if ds.isEmpty then none else some ds
  else none

def swversionSearch : Str → Option Str
  | [] => none
  | c :: t =>
    match swversionAt (c :: t) with
    | some d => some d
    | none => swversionSearch t

/-- The accumulators of the `importOptionsFile` loop.  The TIMEOUTALL
branch updates the model immediately (its two `setState` calls); the
other branches fill the `new*` lists, applied after the loop. -/
structure ImportAcc where
  model : OptionsModel
  foundTimeout : Bool
  newGroups : List OptGroup
  newRules : List OptRule
  newFeatureTimeouts : List FeatureTimeout
  newCustomUsers : List Str

/-- One iteration of the import loop.  `parts` has only non-empty
tokens, so the source's truthiness tests `parts[i] && …` are exactly
length tests, and `parts[3]?.toUpperCase() || 'USER'` /
`parts[4] || ''` never take their fallbacks when the length guard has
passed. -/
def importLine (logUsers : List Str) (acc : ImportAcc) (line : Str) :
    ImportAcc :=
  let parts := splitWs line
  let cmd := jsUpper (parts.getD 0 [])
  if cmd = str "TIMEOUTALL" ∧ 2 ≤ parts.length then
    { acc with
        model := { acc.model with
                     timeoutEnabled := true,
                     timeout := jsOrInt (parseIntJS (parts.getD 1 [])) 3600 },
        foundTimeout := true }
  else if cmd = str "TIMEOUT" ∧ 3 ≤ parts.length then
    { acc with
        newFeatureTimeouts := acc.newFeatureTimeouts ++
          [{ feature := parts.getD 1 [],
             seconds := jsOrInt (parseIntJS (parts.getD 2 [])) 3600 }] }
  else if cmd = str "GROUP" ∧ 2 ≤ parts.length then
    let users := parts.drop 2
    { acc with
        newGroups := acc.newGroups ++ [{ name := parts.getD 1 [], users }],
        newCustomUsers := users.foldl
          (fun l u => if u ∈ logUsers ∨ u ∈ l then l else l ++ [u])
          acc.newCustomUsers }
  else if (cmd = str "MAX" ∨ cmd = str "RESERVE") ∧ 5 ≤ parts.length then
    { acc with
        newRules := acc.newRules ++
          [{ type := if cmd = str "MAX" then .MAX else .RESERVE,
             count := jsOrInt (parseIntJS (parts.getD 1 [])) 1,
             feature := (parts.getD 2 []).takeWhile (fun c => c ≠ ':'),
             targetType := jsUpper (parts.getD 3 []),
             groupOrUser := parts.getD 4 [],
             versionFilter := (swversionSearch (parts.getD 2 [])).getD [] }] }
  else if (cmd = str "INCLUDE" ∨ cmd = str "EXCLUDE" ∨
           cmd = str "INCLUDE_BORROW" ∨ cmd = str "EXCLUDE_BORROW") ∧
          4 ≤ parts.length then
    { acc with
        newRules := acc.newRules ++
          [{ type :=
               if cmd = str "INCLUDE" then .INCLUDE
               else if cmd = str "EXCLUDE" then .EXCLUDE
               else if cmd = str "INCLUDE_BORROW" then .INCLUDE_BORROW
               else .EXCLUDE_BORROW,
             count := 1,
             feature := (parts.getD 1 []).takeWhile (fun c => c ≠ ':'),
             targetType := jsUpper (parts.getD 2 []),
             groupOrUser := parts.getD 3 [],
             versionFilter := (swversionSearch (parts.getD 1 [])).getD [] }] }
  else acc

/-- The line pipeline at the head of `importOptionsFile`: split on
`'\n'`, trim each line, drop blank and `#`-comment lines. -/
def importedLines (text : Str) : List Str :=
  ((splitCh '\n' text).map jsTrim).filter
    (fun l => !l.isEmpty && !(strStartsWith l (str "#")))

/-- `importOptionsFile`: run the dispatch loop over the cleaned lines,
then apply each accumulated collection only when non-empty (and switch
the global timeout off only when no TIMEOUTALL line was found). -/
def importOptionsFile (logUsers : List Str) (m : OptionsModel)
    (text : Str) : OptionsModel :=
  let a := (importedLines text).foldl (importLine logUsers)
    { model := m, foundTimeout := false, newGroups := [], newRules := [],
      newFeatureTimeouts := [], newCustomUsers := [] }
  let m1 := a.model
  let m2 := if a.foundTimeout then m1 else { m1 with timeoutEnabled := false }
  let m3 := if 0 < a.newFeatureTimeouts.length
            then { m2 with featureTimeouts := a.newFeatureTimeouts } else m2
  let m4 := if 0 < a.newGroups.length
            then { m3 with groups := a.newGroups } else m3
  let m5 := if 0 < a.newRules.length
            then { m4 with rules := a.newRules } else m4
  let cu := (m5.customUsers ++ a.newCustomUsers).foldl
    (fun l u => setAdd u l) []
  if 0 < a.newCustomUsers.length then { m5 with customUsers := cu }
  else m5

/-! ### Statement-side predicates -/

/-- A well-formed options-file token: non-empty and whitespace-free
(so that tokenization on `\s+` recovers it exactly). -/
def isToken (s : Str) : Prop := s ≠ [] ∧ ∀ c ∈ s, isWsChar c = false

instance (s : Str) : Decidable (isToken s) := by
  unfold isToken; infer_instance

/-- A published session that is closed with consistent non-negative
duration. -/
def GoodSession (s : Session) : Prop :=
  ∃ a b : Int, s.start = some a ∧ s.endTime = some (some b) ∧
    s.duration = some (((b - a : Int) : Rat) / 60000) ∧ a ≤ b

instance (s : Session) : Decidable (GoodSession s) := by
  unfold GoodSession
  rcases s with ⟨u, h, f, st, en, du⟩
  rcases st with _ | a
  · exact .isFalse (by simp)
  rcases en with _ | en
  · exact .isFalse (by simp)
  rcases en with _ | b
  · exact .isFalse (by simp)
  rcases du with _ | d
  · exact .isFalse (by simp)
  by_cases hd : d = ((b - a : Int) : Rat) / 60000
  · by_cases hab : a ≤ b
    · exact .isTrue ⟨a, b, rfl, rfl, by simp [hd], hab⟩
    · exact .isFalse (by simp_all)
  · exact .isFalse (by simp_all)

/-- Well-formedness of one rule for the export grammar: token-shaped
colon-free feature, token target and user, an upper-case-fixed target
kind, positive count (1 for the kinds whose rendering omits the
count), and a digit-string or empty version filter. -/
def WFRule (r : OptRule) : Prop :=
  isToken r.feature ∧ (∀ c ∈ r.feature, c ≠ ':') ∧
  isToken r.groupOrUser ∧
  isToken r.targetType ∧ jsUpper r.targetType = r.targetType ∧
  0 < r.count ∧
  (r.type = .MAX ∨ r.type = .RESERVE ∨ r.count = 1) ∧
  (r.versionFilter = [] ∨
    (r.versionFilter ≠ [] ∧ ∀ c ∈ r.versionFilter, isDigitChar c = true))

def WFGroup (g : OptGroup) : Prop :=
  isToken g.name ∧ g.users ≠ [] ∧ ∀ u ∈ g.users, isToken u

def WFFeatureTimeout (ft : FeatureTimeout) : Prop :=
  isToken ft.feature ∧ 0 < ft.seconds

/-- Well-formedness of a whole `OptionsModel` for export/import
round-tripping. -/
def WFOptions (m : OptionsModel) : Prop :=
  (m.timeoutEnabled = true → 0 < m.timeout) ∧
  (∀ ft ∈ m.featureTimeouts, WFFeatureTimeout ft) ∧
  (∀ g ∈ m.groups, WFGroup g) ∧
  (∀ r ∈ m.rules, WFRule r)

/-! ## Theorems -/

/-! ### C2 — published sessions are closed with non-negative duration -/

theorem mkRat_60000_eq (n : Int) :
    mkRat n 60000 = ((n : Int) : Rat) / 60000 := by
  rw [Rat.mkRat_eq_div]; norm_num

theorem goodSession_mk (u hh f : Str) (a b : Int)
    (h0 : (0 : Rat) ≤ mkRat (b - a) 60000) :
    GoodSession { user := u, host := hh, feature := f, start := some a,
                  endTime := some (some b),
                  duration := some (mkRat (b - a) 60000) } := by
  have hd := mkRat_60000_eq (b - a)
  have hb : (0 : Rat) ≤ ((b - a : Int) : Rat) := by
    rw [hd] at h0
    rcases div_nonneg_iff.mp h0 with ⟨h1, _⟩ | ⟨_, h2⟩
    · exact h1
    · nlinarith
  have hab : a ≤ b := by
    have h' : (0 : Rat) ≤ (b : Rat) - (a : Rat) := by push_cast at hb; linarith
    exact_mod_cast sub_nonneg.mp h'
  exact ⟨a, b, rfl, rfl, by rw [hd], hab⟩

theorem parseLine_sessions_inv (toTime : Str → JSDate) (y : Nat)
    (st : ParseState) (line : Str)
    (h : ∀ s ∈ st.sessions, GoodSession s) :
    ∀ s ∈ (parseLine toTime y st line).sessions, GoodSession s := by
  unfold parseLine
  cases htm : timeLineMatch line with
  | none => exact h
  | some v =>
    obtain ⟨time, daemon, message⟩ := v
    dsimp only
    repeat' split
    all_goals simp_all
    all_goals
      rintro s (hs | rfl)
      · exact h s hs
      · exact goodSession_mk _ _ _ _ _ (by assumption)

theorem foldl_parseLine_sessions_inv (toTime : Str → JSDate) (y : Nat) :
    ∀ (lines : List Str) (st : ParseState),
      (∀ s ∈ st.sessions, GoodSession s) →
      ∀ s ∈ (lines.foldl (parseLine toTime y) st).sessions, GoodSession s := by
  intro lines
  induction lines with
  | nil => intro st h; exact h
  | cons l t ih =>
    intro st h
    exact ih _ (parseLine_sessions_inv toTime y st l h)

/-- C2: for every input log, every published session is closed (has an
end), its duration is `(end − start) / 60000`, the duration is
non-negative and `end ≥ start`; negative-duration pairings are
discarded rather than clamped, and still-open sessions are never
emitted (the published list contains only sessions satisfying this). -/
theorem C2_sessions_closed_nonneg
    (toTime : Str → JSDate) (year : Nat) (content : Str) :
    ∀ s ∈ (parseLogFile toTime year content).sessions,
      ∃ a b : Int, s.start = some a ∧ s.endTime = some (some b) ∧
        s.duration = some (((b - a : Int) : Rat) / 60000) ∧ a ≤ b ∧
        (0 : Rat) ≤ ((b - a : Int) : Rat) / 60000 := by
  intro s hs
  obtain ⟨a, b, h1, h2, h3, h4⟩ :=
    foldl_parseLine_sessions_inv toTime year (splitNl content)
      { currentDate := [], openSessions := [], sessions := [], entries := [] }
      (by simp) s hs
  refine ⟨a, b, h1, h2, h3, h4, ?_⟩
  have : (0 : Rat) ≤ ((b : Rat) - (a : Rat)) := by
    have := sub_nonneg.mpr (show (a : Rat) ≤ (b : Rat) by exact_mod_cast h4)
    linarith
  have hnum : (0 : Rat) ≤ ((b - a : Int) : Rat) := by push_cast; linarith
  exact div_nonneg hnum (by norm_num)

/-- Sample log for the C2 witness. -/
def c2Log : Str :=
  str "10:00:00 (SW_D) OUT: \"sw\" a@W1\n11:30:00 (SW_D) IN: \"sw\" a@W1"

/-- The single session that parsing `c2Log` publishes (with a constant
date parser). -/
def c2Session : Session :=
  { user := str "a", host := str "W1", feature := str "sw",
    start := some 0, endTime := some (some 0), duration := some 0 }

theorem C2_sessions_closed_nonneg_witness :
    ∃ a b : Int, c2Session.start = some a ∧
      c2Session.endTime = some (some b) ∧
      c2Session.duration = some (((b - a : Int) : Rat) / 60000) ∧ a ≤ b ∧
      (0 : Rat) ≤ ((b - a : Int) : Rat) / 60000 :=
  C2_sessions_closed_nonneg (fun _ => some 0) 2026 c2Log c2Session
    (by decide)

/-! ### C3 — the event-kind priority cascade -/

/-- C3: the interpreter assigns every classified line exactly one kind
(`classifyKind` is a function of the message body alone), following the
fixed priority CHECKOUT (`OUT:`) > RETURN (`IN:`) > DENIED (`DENIED:`)
> UNSUPPORTED > RESERVING > ERROR (case-insensitive `error`, or the
`EXITING` exit marker) > INFO; INFO is the default for a line carrying
none of the markers (a line with none of the cascade markers but with
the TIMESTAMP or version-banner marker keeps those kinds, which the
interpreter assigns before the cascade). -/
theorem C3_classify_priority (m : Str) :
    (strContains m (str "OUT:") = true → classifyKind m = .OUT) ∧
    (strContains m (str "OUT:") = false →
      strContains m (str "IN:") = true → classifyKind m = .IN) ∧
    (strContains m (str "OUT:") = false →
      strContains m (str "IN:") = false →
      strContains m (str "DENIED:") = true → classifyKind m = .DENIED) ∧
    (strContains m (str "OUT:") = false →
      strContains m (str "IN:") = false →
      strContains m (str "DENIED:") = false →
      strContains m (str "UNSUPPORTED") = true →
      classifyKind m = .UNSUPPORTED) ∧
    (strContains m (str "OUT:") = false →
      strContains m (str "IN:") = false →
      strContains m (str "DENIED:") = false →
      strContains m (str "UNSUPPORTED") = false →
      strContains m (str "RESERVING") = true →
      classifyKind m = .RESERVING) ∧
    (strContains m (str "OUT:") = false →
      strContains m (str "IN:") = false →
      strContains m (str "DENIED:") = false →
      strContains m (str "UNSUPPORTED") = false →
      strContains m (str "RESERVING") = false →
      (strContains (jsLower m) (str "error") = true ∨
        strContains m (str "EXITING") = true) →
      classifyKind m = .ERROR) ∧
    (strContains m (str "OUT:") = false →
      strContains m (str "IN:") = false →
      strContains m (str "DENIED:") = false →
      strContains m (str "UNSUPPORTED") = false →
      strContains m (str "RESERVING") = false →
      strContains (jsLower m) (str "error") = false →
      strContains m (str "EXITING") = false →
      strContains m (str "TIMESTAMP") = false →
      strContains m (str "FLEXnet Licensing") = false →
      classifyKind m = .INFO) := by
  refine ⟨?_, ?_, ?_, ?_, ?_, ?_, ?_⟩ <;> intros <;> simp_all [classifyKind]

theorem C3_classify_priority_witness :
    classifyKind (str "TIMESTAMP 6/1/2024 OUT: f u@h") = .OUT ∧
    classifyKind (str "IN: \"sw\" a@W1") = .IN ∧
    classifyKind (str "Vendor daemon is alive") = .INFO :=
  ⟨(C3_classify_priority _).1 (by decide),
   (C3_classify_priority _).2.1 (by decide) (by decide),
   (C3_classify_priority _).2.2.2.2.2.2 (by decide) (by decide) (by decide)
     (by decide) (by decide) (by decide) (by decide) (by decide) (by decide)⟩

/-! ### The running current-date context (shared by C4 and C10) -/

theorem parseLine_currentDate (toTime : Str → JSDate) (y : Nat)
    (st : ParseState) (line : Str) :
    (parseLine toTime y st line).currentDate =
      (lineDateUpdate line).getD st.currentDate := by
  unfold parseLine
  cases htm : timeLineMatch line with
  | none => simp [lineDateUpdate, htm]
  | some v =>
    obtain ⟨t, d, msg⟩ := v
    dsimp only
    repeat' split
    all_goals simp_all [lineDateUpdate, htm]

theorem foldl_currentDate (toTime : Str → JSDate) (y : Nat) :
    ∀ (lines : List Str) (st : ParseState),
      ((lines.foldl (parseLine toTime y) st).currentDate) =
        lines.foldl (fun cd l => (lineDateUpdate l).getD cd) st.currentDate := by
  intro lines
  induction lines with
  | nil => intro st; rfl
  | cons l t ih =>
    intro st
    rw [List.foldl_cons, List.foldl_cons, ih, parseLine_currentDate]

theorem dateFold_none : ∀ (lines : List Str) (cd : Str),
    (∀ l ∈ lines, lineDateUpdate l = none) →
    lines.foldl (fun cd l => (lineDateUpdate l).getD cd) cd = cd := by
  intro lines
  induction lines with
  | nil => intro cd _; rfl
  | cons l t ih =>
    intro cd h
    rw [List.foldl_cons, h l (List.mem_cons_self _ _), ih]
    · rfl
    · exact fun x hx => h x (List.mem_cons_of_mem _ hx)

theorem parseLine_entries_date (toTime : Str → JSDate) (y : Nat)
    (st : ParseState) (line : Str) :
    ∀ e ∈ (parseLine toTime y st line).entries,
      e ∈ st.entries ∨ e.date = (lineDateUpdate line).getD st.currentDate := by
  unfold parseLine
  cases htm : timeLineMatch line with
  | none => exact fun e he => Or.inl he
  | some v =>
    obtain ⟨t, d, msg⟩ := v
    dsimp only
    repeat' split
    all_goals simp_all [lineDateUpdate, htm]
    all_goals
      rintro e (he | rfl)
      · exact Or.inl he
      · simp

/-- Processing one line only appends entries, and every appended entry
carries the running current-date context in force for that line (the
context as updated by the line's own TIMESTAMP match, exactly as the
source assigns `currentDate` before building the entry). -/
theorem parseLine_entries_append (toTime : Str → JSDate) (y : Nat)
    (st : ParseState) (line : Str) :
    ∃ new, (parseLine toTime y st line).entries = st.entries ++ new ∧
      ∀ e ∈ new, e.date = (lineDateUpdate line).getD st.currentDate := by
  unfold parseLine
  cases htm : timeLineMatch line with
  | none => exact ⟨[], by simp, by simp⟩
  | some v =>
    obtain ⟨t, d, msg⟩ := v
    dsimp only
    repeat' split
    all_goals refine ⟨[_], rfl, ?_⟩
    all_goals simp_all [lineDateUpdate, htm]

theorem foldl_entries_prefix (toTime : Str → JSDate) (y : Nat) :
    ∀ (lines : List Str) (st : ParseState),
      ∃ rest, (lines.foldl (parseLine toTime y) st).entries =
        st.entries ++ rest := by
  intro lines
  induction lines with
  | nil => intro st; exact ⟨[], by simp⟩
  | cons l t ih =>
    intro st
    obtain ⟨new, hnew, _⟩ := parseLine_entries_append toTime y st l
    obtain ⟨rest, hrest⟩ := ih (parseLine toTime y st l)
    exact ⟨new ++ rest, by
      rw [List.foldl_cons, hrest, hnew, List.append_assoc]⟩

/-! ### C4 — events before any TIMESTAMP carry an empty date, not the
`1/1/<year>` fallback (claim corrected) -/

/-- C4 counterexample: a log whose single line is an OUT event and which
contains no TIMESTAMP line produces an event whose `date` field is the
empty string — not the claimed explicit `1/1/<current year>` fallback
(that fallback is applied only when building session timestamps). -/
theorem C4_counterexample :
    ((parseLogFile (fun _ => some 0) 2026
        (str "10:00:00 (SW_D) OUT: \"sw\" a@W1")).entries.map
      (fun e => e.date)) = [([] : Str)] ∧
    ([] : Str) ≠ str "1/1/2026" :=
  ⟨by decide, by decide⟩

theorem entries_date_inv (toTime : Str → JSDate) (y : Nat)
    (lines0 : List Str) :
    ∀ (lines : List Str), (∀ l ∈ lines, l ∈ lines0) →
      ∀ (st : ParseState),
      (st.currentDate = [] ∨
        ∃ l ∈ lines0, lineDateUpdate l = some st.currentDate) →
      (∀ e ∈ st.entries,
        e.date = [] ∨ ∃ l ∈ lines0, lineDateUpdate l = some e.date) →
      ∀ e ∈ (lines.foldl (parseLine toTime y) st).entries,
        e.date = [] ∨ ∃ l ∈ lines0, lineDateUpdate l = some e.date := by
  intro lines
  induction lines with
  | nil => intro _ st _ he; exact he
  | cons l t ih =>
    intro hsub st hcd he
    apply ih (fun x hx => hsub x (List.mem_cons_of_mem _ hx))
    · rw [parseLine_currentDate]
      cases hld : lineDateUpdate l with
      | none => simpa using hcd
      | some d =>
        exact Or.inr ⟨l, hsub l (List.mem_cons_self _ _), by simp [hld]⟩
    · intro e hee
      rcases parseLine_entries_date toTime y st l e hee with he' | hdate
      · exact he e he'
      · rw [hdate]
        cases hld : lineDateUpdate l with
        | none => simpa using hcd
        | some d =>
          exact Or.inr ⟨l, hsub l (List.mem_cons_self _ _), by simp [hld]⟩

/-- C4 (amended): every interpreted event carries the running
current-date context in force when its line is processed.  Decomposing
the log's lines as `pre ++ l :: suf`, the events contributed by the
line `l` are exactly the segment the published entry list gains right
after the prefix's entries, and each of them carries the date context
obtained by folding the TIMESTAMP date updates of `pre` from the empty
string and applying the update of `l` itself; in particular an event
produced before any date-bearing TIMESTAMP line carries the empty
string — not the `1/1/<current year>` fallback, which the interpreter
uses only when constructing session start/end timestamps. -/
theorem C4_event_date_running_context (toTime : Str → JSDate)
    (year : Nat) (content : Str) (pre : List Str) (l : Str)
    (suf : List Str) (hsplit : splitNl content = pre ++ l :: suf) :
    ∃ done new rest,
      (parseLogFile toTime year content).entries = done ++ new ++ rest ∧
      done = (pre.foldl (parseLine toTime year)
        { currentDate := [], openSessions := [], sessions := [],
          entries := [] }).entries ∧
      ((pre ++ [l]).foldl (parseLine toTime year)
        { currentDate := [], openSessions := [], sessions := [],
          entries := [] }).entries = done ++ new ∧
      (∀ e ∈ new, e.date = (lineDateUpdate l).getD
        (pre.foldl (fun cd x => (lineDateUpdate x).getD cd) [])) ∧
      ((∀ x ∈ pre, lineDateUpdate x = none) → lineDateUpdate l = none →
        ∀ e ∈ new, e.date = []) := by
  obtain ⟨newE, hnew, hdates⟩ := parseLine_entries_append toTime year
    (pre.foldl (parseLine toTime year)
      { currentDate := [], openSessions := [], sessions := [],
        entries := [] }) l
  obtain ⟨restE, hrest⟩ := foldl_entries_prefix toTime year suf
    (parseLine toTime year
      (pre.foldl (parseLine toTime year)
        { currentDate := [], openSessions := [], sessions := [],
          entries := [] }) l)
  have hctx : (pre.foldl (parseLine toTime year)
      { currentDate := [], openSessions := [], sessions := [],
        entries := [] }).currentDate =
      pre.foldl (fun cd x => (lineDateUpdate x).getD cd) [] := by
    rw [foldl_currentDate]
  have hdates' : ∀ e ∈ newE, e.date = (lineDateUpdate l).getD
      (pre.foldl (fun cd x => (lineDateUpdate x).getD cd) []) := by
    intro e he
    rw [hdates e he, hctx]
  refine ⟨_, newE, restE, ?_, rfl, ?_, hdates', ?_⟩
  · show ((splitNl content).foldl (parseLine toTime year)
      { currentDate := [], openSessions := [], sessions := [],
        entries := [] }).entries = _
    rw [hsplit, List.foldl_append, List.foldl_cons, hrest, hnew,
      List.append_assoc]
  · rw [List.foldl_append, List.foldl_cons, List.foldl_nil, hnew]
  · intro hpre hl e he
    rw [hdates' e he, hl, Option.getD_none]
    exact dateFold_none pre [] hpre

theorem C4_event_date_running_context_witness :
    splitNl (str "09:00:00 (SW_D) TIMESTAMP 6/1/2024\n10:00:00 (SW_D) OUT: \"sw\" a@W1") =
      [str "09:00:00 (SW_D) TIMESTAMP 6/1/2024"] ++
        str "10:00:00 (SW_D) OUT: \"sw\" a@W1" :: [] ∧
    ∃ done new rest,
      (parseLogFile (fun _ => some 0) 2026
        (str "09:00:00 (SW_D) TIMESTAMP 6/1/2024\n10:00:00 (SW_D) OUT: \"sw\" a@W1")).entries =
        done ++ new ++ rest ∧
      done = ([str "09:00:00 (SW_D) TIMESTAMP 6/1/2024"].foldl
        (parseLine (fun _ => some 0) 2026)
        { currentDate := [], openSessions := [], sessions := [],
          entries := [] }).entries ∧
      (([str "09:00:00 (SW_D) TIMESTAMP 6/1/2024"] ++
          [str "10:00:00 (SW_D) OUT: \"sw\" a@W1"]).foldl
        (parseLine (fun _ => some 0) 2026)
        { currentDate := [], openSessions := [], sessions := [],
          entries := [] }).entries = done ++ new ∧
      (∀ e ∈ new, e.date =
        (lineDateUpdate (str "10:00:00 (SW_D) OUT: \"sw\" a@W1")).getD
          ([str "09:00:00 (SW_D) TIMESTAMP 6/1/2024"].foldl
            (fun cd x => (lineDateUpdate x).getD cd) [])) ∧
      ((∀ x ∈ [str "09:00:00 (SW_D) TIMESTAMP 6/1/2024"],
          lineDateUpdate x = none) →
        lineDateUpdate (str "10:00:00 (SW_D) OUT: \"sw\" a@W1") = none →
        ∀ e ∈ new, e.date = []) :=
  ⟨by decide,
    C4_event_date_running_context (fun _ => some 0) 2026
      (str "09:00:00 (SW_D) TIMESTAMP 6/1/2024\n10:00:00 (SW_D) OUT: \"sw\" a@W1")
      [str "09:00:00 (SW_D) TIMESTAMP 6/1/2024"]
      (str "10:00:00 (SW_D) OUT: \"sw\" a@W1") [] (by decide)⟩

/-! ### C10 — `startDate` is the final running-date value -/

/-- C10: the `startDate` metadata field equals the final value of the
running current-date context: the date extracted from the last
date-bearing TIMESTAMP line (later lines without a date update leave it
unchanged), and the empty string when the log contains no date-bearing
TIMESTAMP line at all. -/
theorem C10_startDate_last_timestamp (toTime : Str → JSDate)
    (year : Nat) :
    (∀ content : Str, (∀ l ∈ splitNl content, lineDateUpdate l = none) →
      (parseLogFile toTime year content).startDate = []) ∧
    (∀ (content : Str) (pre : List Str) (l : Str) (suf : List Str)
       (d : Str),
      splitNl content = pre ++ l :: suf →
      lineDateUpdate l = some d →
      (∀ x ∈ suf, lineDateUpdate x = none) →
      (parseLogFile toTime year content).startDate = d) := by
  constructor
  · intro content hnone
    show (_ : ParseState).currentDate = _
    rw [foldl_currentDate]
    exact dateFold_none _ _ hnone
  · intro content pre l suf d hsplit hl hsuf
    show (_ : ParseState).currentDate = _
    rw [foldl_currentDate, hsplit, List.foldl_append, List.foldl_cons, hl]
    exact dateFold_none _ _ hsuf

/-- Concrete check: with two TIMESTAMP lines the published `startDate`
is the second (last) date, not the first. -/
theorem C10_startDate_last_timestamp_witness :
    (parseLogFile (fun _ => some 0) 2026
      (str "09:00:00 (SW_D) TIMESTAMP 6/1/2024\n10:00:00 (SW_D) TIMESTAMP 7/2/2024")).startDate =
      str "7/2/2024" ∧
    str "7/2/2024" ≠ str "6/1/2024" :=
  ⟨(C10_startDate_last_timestamp (fun _ => some 0) 2026).2 _
      [str "09:00:00 (SW_D) TIMESTAMP 6/1/2024"]
      (str "10:00:00 (SW_D) TIMESTAMP 7/2/2024") [] _
      (by decide) (by decide) (by decide),
   by decide⟩

/-! ### Generic facts about the stable comparator sort -/

theorem insBy_perm (bf : α → α → Bool) (x : α) :
    ∀ l : List α, (insBy bf x l).Perm (x :: l) := by
  intro l
  induction l with
  | nil => simp [insBy]
  | cons y ys ih =>
    unfold insBy
    by_cases hb : bf x y
    · simp [hb]
    · simp only [hb, if_false]
      exact ((ih.cons y).trans (List.Perm.swap x y ys))

theorem mem_insBy {bf : α → α → Bool} {x a : α} {l : List α} :
    a ∈ insBy bf x l ↔ a = x ∨ a ∈ l := by
  constructor
  · intro h
    have := (insBy_perm bf x l).mem_iff.mp h
    simpa using this
  · intro h
    apply (insBy_perm bf x l).mem_iff.mpr
    simpa using h

theorem jsSortBy_perm_aux (bf : α → α → Bool) :
    ∀ (l acc : List α),
      (l.foldl (fun acc x => insBy bf x acc) acc).Perm (acc ++ l) := by
  intro l
  induction l with
  | nil => intro acc; simp
  | cons x t ih =>
    intro acc
    refine (ih (insBy bf x acc)).trans ?_
    refine ((insBy_perm bf x acc).append_right t).trans ?_
    exact (List.perm_middle).symm

theorem jsSortBy_perm (bf : α → α → Bool) (l : List α) :
    (jsSortBy bf l).Perm l := by
  have h := jsSortBy_perm_aux bf l []
  simpa [jsSortBy] using h

theorem insBy_pairwise {bf : α → α → Bool} {R : α → α → Prop}
    (h1 : ∀ a b, bf a b = true → R a b)
    (h2 : ∀ a b, bf a b = false → R b a)
    (ht : Transitive R) (x : α) :
    ∀ l : List α, l.Pairwise R → (insBy bf x l).Pairwise R := by
  intro l
  induction l with
  | nil => intro _; simp [insBy]
  | cons y ys ih =>
    intro hp
    rcases List.pairwise_cons.mp hp with ⟨hy, hys⟩
    unfold insBy
    by_cases hb : bf x y
    · simp only [hb, if_true]
      refine List.pairwise_cons.mpr ⟨?_, hp⟩
      intro z hz
      rcases List.mem_cons.mp hz with rfl | hz
      · exact h1 x z hb
      · exact ht (h1 x y hb) (hy z hz)
    · simp only [hb, Bool.false_eq_true, if_false]
      refine List.pairwise_cons.mpr ⟨?_, ih hys⟩
      intro z hz
      rcases mem_insBy.mp hz with rfl | hz
      · exact h2 z y (by simpa using hb)
      · exact hy z hz

theorem jsSortBy_pairwise {bf : α → α → Bool} {R : α → α → Prop}
    (h1 : ∀ a b, bf a b = true → R a b)
    (h2 : ∀ a b, bf a b = false → R b a)
    (ht : Transitive R) (l : List α) :
    (jsSortBy bf l).Pairwise R := by
  suffices h : ∀ (t acc : List α), acc.Pairwise R →
      (t.foldl (fun acc x => insBy bf x acc) acc).Pairwise R by
    exact h l [] List.Pairwise.nil
  intro t
  induction t with
  | nil => intro acc h; exact h
  | cons x ts ih =>
    intro acc h
    exact ih _ (insBy_pairwise h1 h2 ht x acc h)

/-! ### C6 — lemmas about the concurrency sweep -/

theorem le_foldl_max (l : List Int) : ∀ a : Int, a ≤ l.foldl max a := by
  induction l with
  | nil => intro a; exact le_refl a
  | cons h t ih =>
    intro a
    exact le_trans (le_max_left a h) (ih (max a h))

theorem mem_le_foldl_max (l : List Int) :
    ∀ (a : Int) (x : Int), x ∈ l → x ≤ l.foldl max a := by
  induction l with
  | nil => intro a x hx; cases hx
  | cons h t ih =>
    intro a x hx
    rcases List.mem_cons.mp hx with rfl | hx
    · exact le_trans (le_max_right a x) (le_foldl_max t (max a x))
    · exact ih (max a h) x hx

theorem length_runningSums : ∀ (evs : List SweepEvent) (c : Int),
    (runningSums evs c).length = evs.length := by
  intro evs
  induction evs with
  | nil => intro c; rfl
  | cons e t ih => intro c; simp [runningSums, ih]

theorem runningSums_getLast : ∀ (evs : List SweepEvent) (c : Int),
    evs ≠ [] →
    (runningSums evs c).getLast? =
      some (c + (evs.map (fun e => e.delta)).sum) := by
  intro evs
  induction evs with
  | nil => intro c h; cases h rfl
  | cons e t ih =>
    intro c _
    cases t with
    | nil => simp [runningSums]
    | cons e2 t2 =>
      rw [show runningSums (e :: e2 :: t2) c =
            (c + e.delta) :: (c + e.delta + e2.delta) ::
              runningSums t2 (c + e.delta + e2.delta) from rfl,
          List.getLast?_cons_cons,
          show ((c + e.delta + e2.delta) ::
              runningSums t2 (c + e.delta + e2.delta)) =
            runningSums (e2 :: t2) (c + e.delta) from rfl,
          ih (c + e.delta) (by simp)]
      simp [add_assoc]

/-- Every valid session contributes exactly a `+1` and a `−1`, so the
deltas of the per-feature sweep sum to zero. -/
theorem featureSweepEvents_sum_zero (ss : List Session)
    (h : ∀ s ∈ ss, validSession s = true) :
    ((featureSweepEvents ss).map (fun e => e.delta)).sum = 0 := by
  induction ss with
  | nil => rfl
  | cons s t ih =>
    have hs := h s (List.mem_cons_self _ _)
    have ht := ih (fun x hx => h x (List.mem_cons_of_mem _ hx))
    unfold validSession at hs
    rcases hen : s.endTime with _ | en
    · rw [hen] at hs; simp at hs
    rcases hst : s.start with _ | a
    · rw [hen, hst] at hs
      rcases en with _ | b <;> simp at hs
    rcases en with _ | b
    · rw [hen, hst] at hs; simp at hs
    · unfold featureSweepEvents at ht ⊢
      simp only [List.flatMap_cons, List.map_append, List.sum_append, hen]
      simpa using ht

/-- Under the validity filter being vacuous, the aggregator's sweep
events and the per-feature panel's sweep events coincide. -/
theorem sweepEvents_eq_of_valid (ss : List Session)
    (h : ∀ s ∈ ss, validSession s = true) :
    analyticsSweepEvents ss = featureSweepEvents ss := by
  induction ss with
  | nil => rfl
  | cons s t ih =>
    have hs := h s (List.mem_cons_self _ _)
    have ht := ih (fun x hx => h x (List.mem_cons_of_mem _ hx))
    unfold analyticsSweepEvents featureSweepEvents at ht ⊢
    rw [List.filter_cons]
    simp only [hs, if_true, List.flatMap_cons]
    rw [ht]
    congr 1
    unfold validSession at hs
    rcases hen : s.endTime with _ | en
    · rw [hen] at hs; simp at hs
    rcases en with _ | b
    · rw [hen] at hs
      rcases s.start <;> simp at hs
    · simp [hen, jdTime]

theorem alistGet_mem [DecidableEq κ] (k : κ) (v : α) :
    ∀ l : List (κ × α), alistGet k l = some v → (k, v) ∈ l := by
  intro l
  induction l with
  | nil => intro h; cases h
  | cons p t ih =>
    intro h
    unfold alistGet at h
    by_cases hk : p.1 = k
    · rw [if_pos hk] at h
      injection h with hv
      subst hv
      cases p with
      | mk k' v' =>
        cases hk
        exact List.mem_cons_self _ _
    · rw [if_neg hk] at h
      exact List.mem_cons_of_mem _ (ih h)

theorem mem_alistSet [DecidableEq κ] (k : κ) (v : α) (kv : κ × α) :
    ∀ l : List (κ × α), kv ∈ alistSet k v l → kv = (k, v) ∨ kv ∈ l := by
  intro l
  induction l with
  | nil => intro h; simpa [alistSet] using h
  | cons p t ih =>
    intro h
    unfold alistSet at h
    by_cases hk : p.1 = k
    · rw [if_pos hk] at h
      rcases List.mem_cons.mp h with rfl | h
      · exact Or.inl rfl
      · exact Or.inr (List.mem_cons_of_mem _ h)
    · rw [if_neg hk] at h
      rcases List.mem_cons.mp h with rfl | h
      · exact Or.inr (List.mem_cons_self _ _)
      · rcases ih h with h' | h'
        · exact Or.inl h'
        · exact Or.inr (List.mem_cons_of_mem _ h')

/-- Every value recorded in the daily-peak map is bounded by any bound
on the running sums (day peaks are maxima of running sums and 0). -/
theorem concurrentMapFold_bound (B : Int) (hB : 0 ≤ B) :
    ∀ (evs : List SweepEvent) (acc : List (Int × Int)) (c : Int),
      (∀ kv ∈ acc, kv.2 ≤ B) →
      (∀ x ∈ runningSums evs c, x ≤ B) →
      ∀ kv ∈ (evs.foldl
        (fun (acc : List (Int × Int) × Int) e =>
          let c := acc.2 + e.delta
          let old := (alistGet (dayKey e.time) acc.1).getD 0
          (alistSet (dayKey e.time) (max old c) acc.1, c))
        (acc, c)).1, kv.2 ≤ B := by
  intro evs
  induction evs with
  | nil => intro acc c hacc _ kv hkv; exact hacc kv hkv
  | cons e t ih =>
    intro acc c hacc hrun kv hkv
    rw [List.foldl_cons] at hkv
    refine ih _ _ ?_ ?_ kv hkv
    · intro kv' hkv'
      rcases mem_alistSet _ _ _ _ hkv' with rfl | h'
      · have hold : ((alistGet (dayKey e.time) acc).getD 0) ≤ B := by
          cases hg : alistGet (dayKey e.time) acc with
          | none => simpa using hB
          | some v =>
            have := hacc _ (alistGet_mem _ _ _ hg)
            simpa [hg] using this
        have hc : c + e.delta ≤ B := by
          apply hrun
          unfold runningSums
          exact List.mem_cons_self _ _
        simp only [max_le_iff]
        exact ⟨hold, hc⟩
      · exact hacc _ h'
    · intro x hx
      apply hrun
      unfold runningSums
      exact List.mem_cons_of_mem _ hx

theorem pairwise_le_getLast (l : List Int)
    (hp : l.Pairwise (fun a b => a ≤ b)) :
    ∀ x ∈ l, x ≤ l.getLast?.getD 0 := by
  induction l with
  | nil => intro x hx; cases hx
  | cons h t ih =>
    intro x hx
    rcases List.pairwise_cons.mp hp with ⟨hh, ht⟩
    cases t with
    | nil =>
      rcases List.mem_cons.mp hx with rfl | hx
      · simp
      · cases hx
    | cons h2 t2 =>
      rw [List.getLast?_cons_cons]
      rcases List.mem_cons.mp hx with rfl | hx
      · have hlast : (h2 :: t2).getLast? = some ((h2 :: t2).getLast (by simp)) :=
          List.getLast?_eq_getLast _ _
        have hmem : (h2 :: t2).getLast (by simp) ∈ h2 :: t2 :=
          List.getLast_mem _
        have := hh _ hmem
        rw [hlast]
        simpa using this
      · exact ih ht x hx

theorem pairwise_getD_mono (l : List Int)
    (hp : l.Pairwise (fun a b => a ≤ b)) (i j : Nat)
    (hij : i ≤ j) (hj : j < l.length) : l.getD i 0 ≤ l.getD j 0 := by
  rcases Nat.lt_or_ge i j with hlt | hge
  · have hi : i < l.length := lt_trans hlt hj
    rw [List.getD_eq_getElem l 0 hi, List.getD_eq_getElem l 0 hj]
    exact List.pairwise_iff_getElem.mp hp i j hi hj hlt
  · have : i = j := le_antisymm hij hge
    subst this
    exact le_refl _

theorem sortedSamples_pairwise (ss : List Session) :
    (sortedSamples ss).Pairwise (fun a b => a ≤ b) := by
  apply jsSortBy_pairwise
  · intro a b h
    exact le_of_lt (by simpa using h)
  · intro a b h
    exact le_of_not_lt (by simpa using h)
  · exact fun a b c => le_trans

/-- C6: for a feature's session list (all sessions closed and valid,
as the published list guarantees): every reported single-day peak is at
most the maximum value of the feature's sorted concurrency sample
series; the reported peak is at least the 90th-percentile sample; and
the 90th-percentile sample is at least the median sample. -/
theorem C6_concurrency_percentiles (sessions : List Session) (f : Str)
    (hvalid : ∀ s ∈ sessions.filter (fun s => s.feature == f),
      validSession s = true) :
    (∀ p ∈ computeConcurrentUsage (sessions.filter (fun s => s.feature == f)),
      p.2 ≤ (sortedSamples
        (sessions.filter (fun s => s.feature == f))).getLast?.getD 0) ∧
    p90Sample (sessions.filter (fun s => s.feature == f)) ≤
      featurePeak (sessions.filter (fun s => s.feature == f)) ∧
    p50Sample (sessions.filter (fun s => s.feature == f)) ≤
      p90Sample (sessions.filter (fun s => s.feature == f)) := by
  set fs := sessions.filter (fun s => s.feature == f) with hfs
  have hsorted := sortedSamples_pairwise fs
  have hperm : (sortedSamples fs).Perm (concurrentSamples fs) :=
    jsSortBy_perm _ _
  refine ⟨?_, ?_, ?_⟩
  · -- every day peak is at most the maximum sorted sample
    intro p hp
    have hp' : p ∈ concurrentMapFold (sortByTime (analyticsSweepEvents fs)) :=
      (jsSortBy_perm _ _).mem_iff.mp hp
    rw [sweepEvents_eq_of_valid fs hvalid] at hp'
    set evs := sortByTime (featureSweepEvents fs) with hevs
    set B := (sortedSamples fs).getLast?.getD 0 with hB
    have hsamples : concurrentSamples fs = runningSums evs 0 := rfl
    have hbound : ∀ x ∈ runningSums evs 0, x ≤ B := by
      intro x hx
      rw [← hsamples] at hx
      exact pairwise_le_getLast _ hsorted x (hperm.mem_iff.mpr hx)
    have h0B : 0 ≤ B := by
      cases hevsnil : evs with
      | nil =>
        exfalso
        rw [concurrentMapFold, hevsnil] at hp'
        simp at hp'
      | cons e t =>
        have hne : evs ≠ [] := by rw [hevsnil]; simp
        have hsum : ((featureSweepEvents fs).map (fun e => e.delta)).sum = 0 :=
          featureSweepEvents_sum_zero fs hvalid
        have hsum' : (evs.map (fun e => e.delta)).sum = 0 := by
          rw [← hsum]
          exact List.Perm.sum_eq (List.Perm.map _ (jsSortBy_perm _ _))
        have hlast := runningSums_getLast evs 0 hne
        rw [hsum'] at hlast
        have h0mem : (0 : Int) ∈ runningSums evs 0 := by
          apply List.mem_of_mem_getLast? (l := runningSums evs 0) (a := 0)
          simp [hlast]
        exact hbound 0 h0mem
    have := concurrentMapFold_bound B h0B evs [] 0 (by intro kv h; cases h)
      hbound p (by rw [concurrentMapFold] at hp'; exact hp')
    exact this
  · -- peak ≥ p90 sample
    unfold p90Sample featurePeak
    by_cases hlen : idx90 (sortedSamples fs).length < (sortedSamples fs).length
    · have hmem : (sortedSamples fs).getD (idx90 (sortedSamples fs).length) 0 ∈
          sortedSamples fs := by
        rw [List.getD_eq_getElem _ 0 hlen]
        exact List.getElem_mem _
      exact mem_le_foldl_max _ 0 _ (hperm.mem_iff.mp hmem)
    · rw [List.getD_eq_default _ 0 (by omega)]
      exact le_foldl_max _ 0
  · -- p90 sample ≥ median sample
    unfold p50Sample p90Sample
    rcases Nat.eq_zero_or_pos (sortedSamples fs).length with h0 | hpos
    · rw [List.getD_eq_default _ 0 (by omega), List.getD_eq_default _ 0 (by omega)]
    · apply pairwise_getD_mono _ hsorted
      · unfold idx50 idx90; omega
      · unfold idx90; omega

/-- Three concrete sessions (two of feature `sw`, overlapping) for the
C6 witness. -/
def c6Sessions : List Session :=
  [{ user := str "u1", host := str "h1", feature := str "sw",
     start := some 0, endTime := some (some 100), duration := none },
   { user := str "u2", host := str "h2", feature := str "sw",
     start := some 50, endTime := some (some 150), duration := none },
   { user := str "u3", host := str "h3", feature := str "other",
     start := some 0, endTime := some (some 10), duration := none }]

theorem C6_concurrency_percentiles_witness :
    ((0 : Int), (2 : Int)).2 ≤
      (sortedSamples
        (c6Sessions.filter (fun s => s.feature == str "sw"))).getLast?.getD 0 ∧
    p50Sample (c6Sessions.filter (fun s => s.feature == str "sw")) ≤
      p90Sample (c6Sessions.filter (fun s => s.feature == str "sw")) :=
  ⟨(C6_concurrency_percentiles c6Sessions (str "sw") (by decide)).1
      ((0 : Int), (2 : Int)) (by decide),
   (C6_concurrency_percentiles c6Sessions (str "sw") (by decide)).2.2⟩

/-! ### C8 — the under-utilized category does not require missing seat
data (claim corrected) -/

/-- Six sessions of one feature: three nested (peak 3) and three
disjoint singletons, giving `p90 = 2 ≤ ⌈0.4 · 3⌉`. -/
def c8Sessions : List Session :=
  [{ user := str "u1", host := str "h", feature := str "sw",
     start := some 0, endTime := some (some 100), duration := none },
   { user := str "u2", host := str "h", feature := str "sw",
     start := some 1, endTime := some (some 99), duration := none },
   { user := str "u3", host := str "h", feature := str "sw",
     start := some 2, endTime := some (some 98), duration := none },
   { user := str "u4", host := str "h", feature := str "sw",
     start := some 200, endTime := some (some 201), duration := none },
   { user := str "u5", host := str "h", feature := str "sw",
     start := some 300, endTime := some (some 301), duration := none },
   { user := str "u6", host := str "h", feature := str "sw",
     start := some 400, endTime := some (some 401), duration := none }]

/-- C8 counterexample: a feature WITH seat data (4 seats known,
positive), peak 3, `p90 = 2 ≤ ⌈0.4 · 3⌉`, zero denials and none of the
earlier categories is classified under-utilized — the claim's
"exactly when it has no seat data" conjunct does not hold on the code
(the code's `isUnderUtilized` has no seat-data condition). -/
theorem C8_counterexample :
    rightSizing c8Sessions 4 6 0 = .underUtilized ∧ (0 : Int) < 4 :=
  ⟨by decide, by decide⟩

theorem denialRate_eq_zero_iff (c d : Nat) :
    denialRate c d = 0 ↔ d = 0 := by
  unfold denialRate
  by_cases h : 0 < c + d
  · rw [if_pos h, Rat.mkRat_eq_div, div_eq_zero_iff]
    constructor
    · rintro (h1 | h2)
      · have : ((100 * d : Nat) : Int) = 0 := by exact_mod_cast h1
        omega
      · exfalso
        have hne : (c + d : Nat) ≠ 0 := by omega
        exact hne (by exact_mod_cast h2)
    · intro hd
      subst hd
      left
      norm_num
  · rw [if_neg h]
    constructor
    · intro _; omega
    · intro _; rfl

theorem ceil_two_fifths (p : Int) :
    Rat.ceil (mkRat (2 * p) 5) = Rat.ceil ((p : Rat) * (2 / 5)) := by
  congr 1
  rw [Rat.mkRat_eq_div]
  push_cast
  ring

/-- C8 (amended): the evaluator assigns exactly one of the six
categories (it is a function into the category type, and the three
"earlier" categories are exactly characterised by its value), and a
feature is classified under-utilized exactly when none of
over-utilized / at-capacity / over-provisioned applies, its peak is
≥ 3, its 90th-percentile sample is ≤ ⌈0.4 × peak⌉ and it has zero
denials — whether or not seat data is present (the claim's "no seat
data" conjunct is not checked by the code). -/
theorem C8_rightSizing_underUtilized_iff (ss : List Session)
    (seats : Int) (c d : Nat) :
    rightSizing ss seats c d = .underUtilized ↔
      (rightSizing ss seats c d ≠ .overUtilized ∧
       rightSizing ss seats c d ≠ .atCapacity ∧
       rightSizing ss seats c d ≠ .overProvisioned ∧
       3 ≤ featurePeak ss ∧
       p90Sample ss ≤ Rat.ceil ((featurePeak ss : Rat) * (2 / 5)) ∧
       d = 0) := by
  unfold rightSizing
  simp only []
  split_ifs with h1 h2 h3 h4 h5 <;>
    simp_all [ceil_two_fifths, denialRate_eq_zero_iff]

theorem C8_rightSizing_underUtilized_iff_witness :
    rightSizing c8Sessions 4 6 0 = .underUtilized :=
  (C8_rightSizing_underUtilized_iff c8Sessions 4 6 0).mpr
    ⟨by decide, by decide, by decide, by decide,
     by rw [← ceil_two_fifths]; decide, by decide⟩

/-! ### C7 — co-usage: canonical pair labels, stable count-descending
order, top 10 (tie-break corrected) -/

theorem charEqOfToNat {c d : Char} (h : c.toNat = d.toNat) : c = d := by
  apply Char.ext
  unfold Char.toNat at h
  exact UInt32.toNat.inj h

theorem strLtB_false_iff : ∀ a b : Str,
    strLtB a b = false ↔ (strLtB b a = true ∨ a = b) := by
  intro a
  induction a with
  | nil => intro b; cases b <;> simp [strLtB]
  | cons c cs ih =>
    intro b
    cases b with
    | nil => simp [strLtB]
    | cons d ds =>
      unfold strLtB
      by_cases h1 : c.toNat < d.toNat
      · have h2 : ¬ d.toNat < c.toNat := by omega
        have h3 : ¬ (c :: cs) = (d :: ds) := by
          intro he
          injection he with hc _
          rw [hc] at h1
          omega
        simp [h1, h2, h3]
      · by_cases h2 : d.toNat < c.toNat
        · have h3 : ¬ (c :: cs) = (d :: ds) := by
            intro he
            injection he with hc _
            rw [hc] at h2
            omega
          simp [h1, h2]
        · have hcd : c = d := charEqOfToNat (by omega)
          subst hcd
          simp only [h1, if_false, ih ds]
          constructor
          · rintro (h | rfl)
            · exact Or.inl h
            · exact Or.inr rfl
          · rintro (h | he)
            · exact Or.inl h
            · injection he with _ he2
              exact Or.inr he2

theorem strLtB_trans : ∀ a b c : Str,
    strLtB a b = true → strLtB b c = true → strLtB a c = true := by
  intro a
  induction a with
  | nil =>
    intro b c hab hbc
    cases b with
    | nil => cases hab
    | cons d ds =>
      cases c with
      | nil => cases hbc
      | cons e es => simp [strLtB]
  | cons x xs ih =>
    intro b c hab hbc
    cases b with
    | nil => cases hab
    | cons d ds =>
      cases c with
      | nil => cases hbc
      | cons e es =>
        unfold strLtB at hab hbc ⊢
        rcases Nat.lt_trichotomy x.toNat d.toNat with h1 | h1 | h1
        · rcases Nat.lt_trichotomy d.toNat e.toNat with h2 | h2 | h2
          · rw [if_pos (show x.toNat < e.toNat by omega)]
          · have hde : d = e := charEqOfToNat h2
            subst hde
            rw [if_pos h1]
          · rw [if_neg (by omega), if_pos h2] at hbc
            simp at hbc
        · have hxd : x = d := charEqOfToNat h1
          subst hxd
          rw [if_neg (by omega), if_neg (by omega)] at hab
          rcases Nat.lt_trichotomy x.toNat e.toNat with h2 | h2 | h2
          · rw [if_pos h2]
          · have hxe : x = e := charEqOfToNat h2
            subst hxe
            rw [if_neg (by omega), if_neg (by omega)] at hbc ⊢
            exact ih _ _ hab hbc
          · rw [if_neg (by omega), if_pos h2] at hbc
            simp at hbc
        · rw [if_neg (by omega), if_pos h1] at hab
          simp at hab

theorem strLtB_asymm {a b : Str} (h : strLtB a b = true) :
    strLtB b a = false := by
  rw [strLtB_false_iff]
  exact Or.inl h

theorem strLtB_neg_trans {a b c : Str} (hba : strLtB b a = false)
    (hcb : strLtB c b = false) : strLtB c a = false := by
  rw [strLtB_false_iff] at hba hcb ⊢
  rcases hba with hab | rfl
  · rcases hcb with hbc | rfl
    · exact Or.inl (strLtB_trans _ _ _ hab hbc)
    · exact Or.inl hab
  · rcases hcb with hbc | rfl
    · exact Or.inl hbc
    · exact Or.inr rfl

theorem takeWhile_append_of_all {p : Char → Bool} :
    ∀ (l1 l2 : Str), (∀ c ∈ l1, p c = true) →
      (l1 ++ l2).takeWhile p = l1 ++ l2.takeWhile p := by
  intro l1
  induction l1 with
  | nil => intro l2 _; rfl
  | cons c t ih =>
    intro l2 h
    rw [List.cons_append, List.takeWhile_cons,
      h c (List.mem_cons_self _ _), ih l2 (fun x hx => h x (List.mem_cons_of_mem _ hx))]
    rfl

/-- A co-usage label `a + " + " + b` with space-free components
decomposes uniquely. -/
theorem label_decomp_unique (a b x y : Str)
    (ha : ∀ c ∈ a, c ≠ ' ') (hx : ∀ c ∈ x, c ≠ ' ')
    (h : a ++ str " + " ++ b = x ++ str " + " ++ y) : a = x ∧ b = y := by
  have hta : ((a ++ str " + " ++ b).takeWhile (fun c => c ≠ ' ')) = a := by
    rw [List.append_assoc, takeWhile_append_of_all a _ (by
      intro c hc
      simpa using ha c hc)]
    simp [str, List.takeWhile_cons]
  have htx : ((x ++ str " + " ++ y).takeWhile (fun c => c ≠ ' ')) = x := by
    rw [List.append_assoc, takeWhile_append_of_all x _ (by
      intro c hc
      simpa using hx c hc)]
    simp [str, List.takeWhile_cons]
  have hax : a = x := by rw [← hta, ← htx, h]
  subst hax
  refine ⟨rfl, ?_⟩
  rw [List.append_assoc, List.append_assoc] at h
  have h2 := List.append_cancel_left h
  exact List.append_cancel_left h2

/-- Sorting a duplicate-free list of strings with the default
comparator yields a strictly increasing list. -/
theorem sortStrAsc_pairwise_lt (l : List Str) (hnd : l.Nodup) :
    (sortStrAsc l).Pairwise (fun a b => strLtB a b = true) := by
  have hR : (sortStrAsc l).Pairwise (fun a b => strLtB b a = false) := by
    apply jsSortBy_pairwise
    · intro a b h
      exact strLtB_asymm h
    · intro a b h
      exact h
    · intro a b c hba hcb
      exact strLtB_neg_trans hba hcb
  have hnd' : (sortStrAsc l).Nodup := ((jsSortBy_perm _ l).nodup_iff).mpr hnd
  have := List.Pairwise.and hR hnd'
  apply this.imp
  intro a b hab
  rcases hab with ⟨hfalse, hne⟩
  rcases (strLtB_false_iff b a).mp hfalse with h | rfl
  · exact h
  · exact absurd rfl hne

theorem pairLabels_mem (l : List Str)
    (hp : l.Pairwise (fun a b => strLtB a b = true)) :
    ∀ lbl ∈ pairLabels l,
      ∃ x ∈ l, ∃ y ∈ l, strLtB x y = true ∧ lbl = x ++ str " + " ++ y := by
  induction l with
  | nil => intro lbl h; cases h
  | cons a rest ih =>
    intro lbl hl
    rcases List.pairwise_cons.mp hp with ⟨hha, hrest⟩
    unfold pairLabels at hl
    rcases List.mem_append.mp hl with hmap | hrec
    · rcases List.mem_map.mp hmap with ⟨y, hy, rfl⟩
      exact ⟨a, List.mem_cons_self _ _, y, List.mem_cons_of_mem _ hy,
        hha y hy, rfl⟩
    · rcases ih hrest lbl hrec with ⟨x, hx, y, hy, hlt, rfl⟩
      exact ⟨x, List.mem_cons_of_mem _ hx, y, List.mem_cons_of_mem _ hy,
        hlt, rfl⟩

theorem setAdd_nodup [DecidableEq α] (x : α) (l : List α)
    (h : l.Nodup) : (setAdd x l).Nodup := by
  unfold setAdd
  by_cases hx : x ∈ l
  · rw [if_pos hx]; exact h
  · rw [if_neg hx]
    simpa [List.nodup_append] using ⟨h, hx⟩

theorem mem_setAdd [DecidableEq α] {x y : α} {l : List α} :
    y ∈ setAdd x l → y = x ∨ y ∈ l := by
  unfold setAdd
  by_cases hx : x ∈ l
  · rw [if_pos hx]; exact fun h => Or.inr h
  · rw [if_neg hx]
    intro h
    rcases List.mem_append.mp h with h | h
    · exact Or.inr h
    · simp at h
      exact Or.inl h

/-- Invariant of `userFeatures`: every stored feature set is
duplicate-free and contains only features of the input sessions. -/
theorem userFeatureSets_inv (ss : List Session) :
    ∀ uf ∈ userFeatureSets ss,
      uf.2.Nodup ∧ ∀ x ∈ uf.2, ∃ s ∈ ss, s.feature = x := by
  suffices h : ∀ (t : List Session) (acc : List (Str × List Str)),
      (∀ uf ∈ acc, uf.2.Nodup ∧ ∀ x ∈ uf.2, ∃ s ∈ ss, s.feature = x) →
      (∀ s ∈ t, s ∈ ss) →
      ∀ uf ∈ (t.foldl (fun acc s =>
          match alistGet s.user acc with
          | none => alistSet s.user [s.feature] acc
          | some fs => alistSet s.user (setAdd s.feature fs) acc) acc),
        uf.2.Nodup ∧ ∀ x ∈ uf.2, ∃ s ∈ ss, s.feature = x by
    intro uf huf
    exact h ss [] (by simp) (fun s hs => hs) uf huf
  intro t
  induction t with
  | nil => intro acc hacc _ uf huf; exact hacc uf huf
  | cons s t ih =>
    intro acc hacc hsub uf huf
    rw [List.foldl_cons] at huf
    refine ih _ ?_ (fun x hx => hsub x (List.mem_cons_of_mem _ hx)) uf huf
    intro uf' huf'
    have hsss : s ∈ ss := hsub s (List.mem_cons_self _ _)
    cases hget : alistGet s.user acc with
    | none =>
      rw [hget] at huf'
      rcases mem_alistSet _ _ _ _ huf' with rfl | h'
      · refine ⟨by simp, ?_⟩
        intro x hx
        simp only [List.mem_singleton] at hx
        subst hx
        exact ⟨s, hsss, rfl⟩
      · exact hacc _ h'
    | some fs =>
      rw [hget] at huf'
      rcases mem_alistSet _ _ _ _ huf' with rfl | h'
      · have hold := hacc _ (alistGet_mem _ _ _ hget)
        refine ⟨setAdd_nodup _ _ hold.1, ?_⟩
        intro x hx
        rcases mem_setAdd hx with rfl | hx'
        · exact ⟨s, hsss, rfl⟩
        · exact hold.2 x hx'
      · exact hacc _ h'

theorem mem_bumpCount (lbl : Str) (acc : List (Str × Nat)) :
    ∀ kv ∈ bumpCount lbl acc, kv.1 = lbl ∨ kv ∈ acc := by
  unfold bumpCount
  cases hget : alistGet lbl acc with
  | none =>
    intro kv hkv
    rcases mem_alistSet _ _ _ _ hkv with rfl | h
    · exact Or.inl rfl
    · exact Or.inr h
  | some n =>
    intro kv hkv
    rcases mem_alistSet _ _ _ _ hkv with rfl | h
    · exact Or.inl rfl
    · exact Or.inr h

/-- Every key of the pair-counter is a canonically ordered label over
the sessions' features. -/
theorem pairCounts_keys (ss : List Session) :
    ∀ kv ∈ pairCounts ss,
      ∃ x y : Str, (∃ s ∈ ss, s.feature = x) ∧ (∃ s ∈ ss, s.feature = y) ∧
        strLtB x y = true ∧ kv.1 = x ++ str " + " ++ y := by
  suffices h : ∀ (ufs : List (Str × List Str)) (acc : List (Str × Nat)),
      (∀ uf ∈ ufs, uf.2.Nodup ∧ ∀ x ∈ uf.2, ∃ s ∈ ss, s.feature = x) →
      (∀ kv ∈ acc,
        ∃ x y : Str, (∃ s ∈ ss, s.feature = x) ∧ (∃ s ∈ ss, s.feature = y) ∧
          strLtB x y = true ∧ kv.1 = x ++ str " + " ++ y) →
      ∀ kv ∈ (ufs.foldl (fun acc uf => (pairLabels (sortStrAsc uf.2)).foldl
          (fun a lbl => bumpCount lbl a) acc) acc),
        ∃ x y : Str, (∃ s ∈ ss, s.feature = x) ∧ (∃ s ∈ ss, s.feature = y) ∧
          strLtB x y = true ∧ kv.1 = x ++ str " + " ++ y by
    intro kv hkv
    exact h (userFeatureSets ss) [] (userFeatureSets_inv ss) (by simp) kv hkv
  intro ufs
  induction ufs with
  | nil => intro acc _ hacc kv hkv; exact hacc kv hkv
  | cons uf t ih =>
    intro acc hufs hacc kv hkv
    rw [List.foldl_cons] at hkv
    refine ih _ (fun x hx => hufs x (List.mem_cons_of_mem _ hx)) ?_ kv hkv
    have huf := hufs uf (List.mem_cons_self _ _)
    -- one user's labels: fold bumpCount over the pair labels
    have hlbls := pairLabels_mem (sortStrAsc uf.2)
      (sortStrAsc_pairwise_lt uf.2 huf.1)
    suffices hstep : ∀ (lbls : List Str),
        (∀ lbl ∈ lbls, ∃ x ∈ sortStrAsc uf.2, ∃ y ∈ sortStrAsc uf.2,
          strLtB x y = true ∧ lbl = x ++ str " + " ++ y) →
        ∀ (a : List (Str × Nat)),
        (∀ kv ∈ a,
          ∃ x y : Str, (∃ s ∈ ss, s.feature = x) ∧ (∃ s ∈ ss, s.feature = y) ∧
            strLtB x y = true ∧ kv.1 = x ++ str " + " ++ y) →
        ∀ kv ∈ lbls.foldl (fun a lbl => bumpCount lbl a) a,
          ∃ x y : Str, (∃ s ∈ ss, s.feature = x) ∧ (∃ s ∈ ss, s.feature = y) ∧
            strLtB x y = true ∧ kv.1 = x ++ str " + " ++ y by
      exact hstep _ hlbls acc hacc
    intro lbls
    induction lbls with
    | nil => intro _ a ha kv hkv; exact ha kv hkv
    | cons lbl tl ihl =>
      intro hl a ha kv hkv
      rw [List.foldl_cons] at hkv
      refine ihl (fun x hx => hl x (List.mem_cons_of_mem _ hx)) _ ?_ kv hkv
      intro kv' hkv'
      rcases mem_bumpCount lbl a kv' hkv' with hkey | h'
      · rcases hl lbl (List.mem_cons_self _ _) with ⟨x, hx, y, hy, hlt, rfl⟩
        have hxf : ∃ s ∈ ss, s.feature = x :=
          huf.2 x ((jsSortBy_perm _ _).mem_iff.mp hx)
        have hyf : ∃ s ∈ ss, s.feature = y :=
          huf.2 y ((jsSortBy_perm _ _).mem_iff.mp hy)
        exact ⟨x, y, hxf, hyf, hlt, hkey⟩
      · exact ha kv' h'

/-- Four sessions giving two tied co-usage pairs whose first-insertion
order differs from lexical order. -/
def c7Sessions : List Session :=
  [{ user := str "u1", host := str "h", feature := str "b",
     start := some 0, endTime := none, duration := none },
   { user := str "u1", host := str "h", feature := str "c",
     start := some 0, endTime := none, duration := none },
   { user := str "u2", host := str "h", feature := str "a",
     start := some 0, endTime := none, duration := none },
   { user := str "u2", host := str "h", feature := str "b",
     start := some 0, endTime := none, duration := none }]

/-- C7 counterexample: with two pairs tied at count 1, the returned
order is `["b + c", "a + b"]` — the stable sort keeps first-insertion
order, and the lexically smaller label comes second, so ties are NOT
broken lexicographically as claimed. -/
theorem C7_counterexample :
    computeFeatureCoUsage c7Sessions =
      [(str "b + c", 1), (str "a + b", 1)] ∧
    strLtB (str "a + b") (str "b + c") = true :=
  ⟨by decide, by decide⟩

/-- C7 (amended): in the co-usage output only the canonical (lexically
ascending) label of each feature pair can appear — for lexically
ordered space-free names `x < y` the reversed label `y + " + " + x` is
never reported; the list is sorted by shared-user count descending
(ties kept in first-insertion order, not re-sorted lexicographically)
and holds at most 10 pairs. -/
theorem C7_coUsage_canonical_top10 (ss : List Session)
    (hsp : ∀ s ∈ ss, ∀ c ∈ s.feature, c ≠ ' ') :
    (∀ x y : Str, (∀ c ∈ x, c ≠ ' ') → (∀ c ∈ y, c ≠ ' ') →
      strLtB x y = true →
      ∀ n : Nat, (y ++ str " + " ++ x, n) ∉ computeFeatureCoUsage ss) ∧
    (computeFeatureCoUsage ss).Pairwise (fun p q => q.2 ≤ p.2) ∧
    (computeFeatureCoUsage ss).length ≤ 10 := by
  refine ⟨?_, ?_, ?_⟩
  · intro x y hx hy hlt n hmem
    have hmem' : ((y ++ str " + " ++ x, n) : Str × Nat) ∈
        jsSortBy (fun a b => b.2 < a.2) (pairCounts ss) :=
      List.mem_of_mem_take hmem
    have hmem2 : ((y ++ str " + " ++ x, n) : Str × Nat) ∈ pairCounts ss :=
      (jsSortBy_perm _ _).mem_iff.mp hmem'
    rcases pairCounts_keys ss _ hmem2 with ⟨x', y', hxf, hyf, hlt', hkey⟩
    have hx'sp : ∀ c ∈ x', c ≠ ' ' := by
      rcases hxf with ⟨s, hs, rfl⟩
      exact hsp s hs
    have hdec := label_decomp_unique y x x' y' hy hx'sp hkey
    rcases hdec with ⟨rfl, rfl⟩
    have := strLtB_asymm hlt
    rw [this] at hlt'
    cases hlt'
  · apply List.Pairwise.sublist (List.take_sublist _ _)
    apply jsSortBy_pairwise
    · intro a b h
      exact le_of_lt (by simpa using h)
    · intro a b h
      exact le_of_not_lt (by simpa using h)
    · intro a b c h1 h2
      exact le_trans h2 h1
  · exact List.length_take_le _ _

theorem C7_coUsage_canonical_top10_witness :
    (str "b" ++ str " + " ++ str "a", 1) ∉ computeFeatureCoUsage c7Sessions :=
  (C7_coUsage_canonical_top10 c7Sessions (by decide)).1
    (str "a") (str "b") (by decide) (by decide) (by decide) 1

/-! ### Options codec: decimal rendering parses back -/

theorem toNat_charOfNat (n : Nat) (h : n < 55296) :
    (Char.ofNat n).toNat = n := by
  unfold Char.toNat
  rw [Char.ofNat, dif_pos (Or.inl h)]
  rfl

theorem digitVal_digitChar (d : Nat) (h : d < 10) :
    digitVal (digitChar d) = d := by
  unfold digitVal digitChar
  rw [toNat_charOfNat _ (by omega)]
  omega

theorem isDigitChar_digitChar (d : Nat) (h : d < 10) :
    isDigitChar (digitChar d) = true := by
  unfold isDigitChar digitChar
  rw [toNat_charOfNat _ (by omega)]
  simp
  omega

theorem digit_not_ws {c : Char} (h : isDigitChar c = true) :
    isWsChar c = false := by
  unfold isDigitChar at h
  simp only [Bool.and_eq_true, decide_eq_true_eq] at h
  unfold isWsChar
  simp only [Bool.or_eq_false_iff, decide_eq_false_iff_not]
  refine ⟨⟨⟨⟨⟨?_, ?_⟩, ?_⟩, ?_⟩, ?_⟩, ?_⟩ <;>
    (rintro rfl; revert h; decide)

theorem natToStr_all_digits (n : Nat) :
    ∀ c ∈ natToStr n, isDigitChar c = true := by
  unfold natToStr
  by_cases h : n = 0
  · rw [if_pos h]
    intro c hc
    simp only [List.mem_singleton] at hc
    subst hc
    decide
  · rw [if_neg h]
    intro c hc
    rcases List.mem_map.mp (by simpa using hc) with ⟨d, hd, rfl⟩
    have hlt : d < 10 := Nat.digits_lt_base (by norm_num) hd
    exact isDigitChar_digitChar d hlt

theorem natToStr_ne_nil (n : Nat) : natToStr n ≠ [] := by
  unfold natToStr
  by_cases h : n = 0
  · rw [if_pos h]; simp
  · rw [if_neg h]
    simp only [ne_eq, List.map_eq_nil_iff, List.reverse_eq_nil_iff]
    exact Nat.digits_ne_nil_iff_ne_zero.mpr h

theorem isToken_natToStr (n : Nat) : isToken (natToStr n) :=
  ⟨natToStr_ne_nil n, fun c hc => digit_not_ws (natToStr_all_digits n c hc)⟩

theorem foldl_digitChars (ds : List Nat) (hds : ∀ d ∈ ds, d < 10) :
    ∀ a : Nat,
      ((ds.reverse.map digitChar).foldl (fun acc c => acc * 10 + digitVal c) a)
        = a * 10 ^ ds.length + Nat.ofDigits 10 ds := by
  induction ds with
  | nil => intro a; simp
  | cons d ds ih =>
    intro a
    rw [List.reverse_cons, List.map_append, List.foldl_append]
    rw [ih (fun x hx => hds x (List.mem_cons_of_mem _ hx))]
    simp only [List.map_cons, List.map_nil, List.foldl_cons, List.foldl_nil]
    rw [digitVal_digitChar d (hds d (List.mem_cons_self _ _))]
    rw [Nat.ofDigits_cons, List.length_cons, pow_succ]
    ring

theorem decPrefix_natToStr (n : Nat) : decPrefix (natToStr n) = some n := by
  unfold decPrefix
  have htw : (natToStr n).takeWhile isDigitChar = natToStr n := by
    have := takeWhile_append_of_all (p := isDigitChar) (natToStr n) []
      (natToStr_all_digits n)
    simpa using this
  rw [htw]
  rw [if_neg (by simp [natToStr_ne_nil n])]
  congr 1
  unfold natToStr
  by_cases h : n = 0
  · rw [if_pos h]
    subst h
    decide
  · rw [if_neg h]
    rw [foldl_digitChars _ (fun d hd => Nat.digits_lt_base (by norm_num) hd) 0]
    simp [Nat.ofDigits_digits]

theorem parseIntMag_natToStr (n : Nat) : parseIntMag (natToStr n) = some n := by
  have hd := natToStr_all_digits n
  rcases hs : natToStr n with _ | ⟨c1, t⟩
  · exact absurd hs (natToStr_ne_nil n)
  · rcases t with _ | ⟨c2, t2⟩
    · show decPrefix [c1] = some n
      rw [← hs, decPrefix_natToStr]
    · show (if c1 = '0' ∧ (c2 = 'x' ∨ c2 = 'X') then hexPrefix t2
        else decPrefix (c1 :: c2 :: t2)) = some n
      have hc2 : isDigitChar c2 = true := by
        apply hd
        rw [hs]
        simp
      rw [if_neg ?hneg, ← hs, decPrefix_natToStr]
      case hneg =>
        rintro ⟨_, hx | hx⟩ <;> (subst hx; revert hc2; decide)

theorem parseIntJS_natToStr (n : Nat) : parseIntJS (natToStr n) = some n := by
  have hd := natToStr_all_digits n
  have hdrop : (natToStr n).dropWhile isWsChar = natToStr n := by
    rcases hs : natToStr n with _ | ⟨c, t⟩
    · rfl
    · rw [List.dropWhile_cons, if_neg]
      simp only [Bool.not_eq_true]
      apply digit_not_ws
      apply hd
      rw [hs]
      simp
  unfold parseIntJS
  rw [hdrop]
  split
  · rename_i t heq
    exfalso
    have : isDigitChar '-' = true := hd _ (by rw [heq]; simp)
    revert this
    decide
  · rename_i t heq
    exfalso
    have : isDigitChar '+' = true := hd _ (by rw [heq]; simp)
    revert this
    decide
  · rw [parseIntMag_natToStr]
    rfl

theorem parseIntJS_intToStr_pos (i : Int) (h : 0 < i) :
    parseIntJS (intToStr i) = some i := by
  unfold intToStr
  rw [if_neg (show ¬ i < 0 by omega)]
  rw [parseIntJS_natToStr]
  have h2 : (i.toNat : Int) = i := Int.toNat_of_nonneg (le_of_lt h)
  simp [h2]

theorem isToken_intToStr_pos (i : Int) (h : 0 < i) :
    isToken (intToStr i) := by
  unfold intToStr
  rw [if_neg (show ¬ i < 0 by omega)]
  exact isToken_natToStr _

/-! ### Options codec: tokenization of rendered lines -/

theorem splitWsAux_nonws :
    ∀ (w rest acc : Str), (∀ c ∈ w, isWsChar c = false) →
      splitWsAux (w ++ rest) acc = splitWsAux rest (w.reverse ++ acc) := by
  intro w
  induction w with
  | nil => intro rest acc _; simp
  | cons c w' ih =>
    intro rest acc h
    have hc : isWsChar c = false := h c (List.mem_cons_self _ _)
    calc splitWsAux ((c :: w') ++ rest) acc
        = splitWsAux (w' ++ rest) (c :: acc) := by
          rw [List.cons_append]
          unfold splitWsAux
          rw [if_neg (by simp [hc])]
          rw [splitWsAux.eq_def]
      _ = splitWsAux rest (w'.reverse ++ (c :: acc)) :=
          ih rest (c :: acc) (fun x hx => h x (List.mem_cons_of_mem _ hx))
      _ = splitWsAux rest ((c :: w').reverse ++ acc) := by
          congr 1
          simp

theorem splitWs_join :
    ∀ toks : List Str, (∀ t ∈ toks, isToken t) →
      splitWs (joinSep [' '] toks) = toks := by
  intro toks
  induction toks with
  | nil => intro _; rfl
  | cons t rest ih =>
    intro h
    have ht := h t (List.mem_cons_self _ _)
    cases rest with
    | nil =>
      have h0 := splitWsAux_nonws t [] [] (fun c hc => ht.2 c hc)
      rw [List.append_nil] at h0
      show splitWsAux t [] = [t]
      rw [h0]
      unfold splitWsAux
      rw [List.append_nil]
      rw [if_neg (by simpa using ht.1)]
      simp
    | cons t2 rest2 =>
      show splitWsAux (joinSep [' '] (t :: t2 :: rest2)) [] = t :: t2 :: rest2
      rw [show joinSep [' '] (t :: t2 :: rest2) =
            t ++ [' '] ++ joinSep [' '] (t2 :: rest2) from rfl]
      rw [List.append_assoc]
      rw [splitWsAux_nonws t _ [] (fun c hc => ht.2 c hc)]
      rw [List.singleton_append]
      unfold splitWsAux
      rw [if_pos (by decide)]
      rw [if_neg (by simp [ht.1])]
      have hrec := ih (fun x hx => h x (List.mem_cons_of_mem _ hx))
      unfold splitWs at hrec
      rw [hrec]
      simp

theorem splitCh_ne_nil (c : Char) : ∀ s : Str, splitCh c s ≠ [] := by
  intro s
  induction s with
  | nil => simp [splitCh]
  | cons d t ih =>
    unfold splitCh
    by_cases h : d = c
    · simp [h]
    · rw [if_neg h]
      rcases hs : splitCh c t with _ | ⟨x, r⟩
      · exact absurd hs ih
      · simp

theorem splitCh_prepend (c : Char) :
    ∀ (w rest : Str), (∀ x ∈ w, x ≠ c) →
      splitCh c (w ++ rest) =
        match splitCh c rest with
        | [] => [w]
        | h :: r => (w ++ h) :: r := by
  intro w
  induction w with
  | nil =>
    intro rest _
    rcases hs : splitCh c rest with _ | ⟨x, r⟩
    · exact absurd hs (splitCh_ne_nil c rest)
    · rw [List.nil_append, hs]
      simp
  | cons d w' ih =>
    intro rest h
    have h1 : splitCh c ((d :: w') ++ rest) =
        match splitCh c (w' ++ rest) with
        | [] => [[d]]
        | h :: r => (d :: h) :: r := by
      rw [List.cons_append]
      unfold splitCh
      rw [if_neg (h d (List.mem_cons_self _ _))]
      conv_lhs => rw [splitCh.eq_def]
    rw [h1, ih rest (fun x hx => h x (List.mem_cons_of_mem _ hx))]
    rcases hs : splitCh c rest with _ | ⟨x, r⟩
    · exact absurd hs (splitCh_ne_nil c rest)
    · simp

theorem splitCh_join (c : Char) :
    ∀ (t : Str) (rest : List Str), (∀ x ∈ t, x ≠ c) →
      (∀ l ∈ rest, ∀ x ∈ l, x ≠ c) →
      splitCh c (joinSep [c] (t :: rest)) = t :: rest := by
  intro t rest
  induction rest generalizing t with
  | nil =>
    intro ht _
    show splitCh c t = [t]
    have := splitCh_prepend c t [] ht
    simpa [splitCh] using this
  | cons t2 rest2 ih =>
    intro ht hrest
    rw [show joinSep [c] (t :: t2 :: rest2) =
          t ++ ([c] ++ joinSep [c] (t2 :: rest2)) by
        rw [show joinSep [c] (t :: t2 :: rest2) =
              t ++ [c] ++ joinSep [c] (t2 :: rest2) from rfl]
        rw [List.append_assoc]]
    rw [splitCh_prepend c t _ ht]
    rw [List.singleton_append]
    rw [show splitCh c (c :: joinSep [c] (t2 :: rest2)) =
          [] :: splitCh c (joinSep [c] (t2 :: rest2)) by
        simp [splitCh]]
    rw [ih t2 (hrest t2 (List.mem_cons_self _ _))
      (fun l hl => hrest l (List.mem_cons_of_mem _ hl))]
    simp

theorem jsTrim_eq_self (s : Str) (h1 : s.dropWhile isWsChar = s)
    (h2 : s.reverse.dropWhile isWsChar = s.reverse) : jsTrim s = s := by
  unfold jsTrim
  rw [h1, h2, List.reverse_reverse]

/-! ### Options codec: the line pipeline on rendered text -/

theorem ws_ne_of_token {c : Char} (h : isWsChar c = false) : c ≠ '\n' := by
  rintro rfl
  revert h
  decide

theorem mem_joinSep_space {c : Char} :
    ∀ toks : List Str, c ∈ joinSep [' '] toks →
      c = ' ' ∨ ∃ t ∈ toks, c ∈ t := by
  intro toks
  induction toks with
  | nil => intro h; cases h
  | cons t rest ih =>
    intro h
    cases rest with
    | nil =>
      exact Or.inr ⟨t, List.mem_cons_self _ _, h⟩
    | cons t2 rest2 =>
      rw [show joinSep [' '] (t :: t2 :: rest2) =
            t ++ [' '] ++ joinSep [' '] (t2 :: rest2) from rfl] at h
      rcases List.mem_append.mp h with h1 | h2
      · rcases List.mem_append.mp h1 with h1 | h1
        · exact Or.inr ⟨t, List.mem_cons_self _ _, h1⟩
        · simp at h1
          exact Or.inl h1
      · rcases ih h2 with h' | ⟨x, hx, hcx⟩
        · exact Or.inl h'
        · exact Or.inr ⟨x, List.mem_cons_of_mem _ hx, hcx⟩

theorem head?_joinSep (t : Str) (rest : List Str) (ht : t ≠ []) :
    (joinSep [' '] (t :: rest)).head? = t.head? := by
  cases rest with
  | nil => rfl
  | cons t2 rest2 =>
    rw [show joinSep [' '] (t :: t2 :: rest2) =
          t ++ ([' '] ++ joinSep [' '] (t2 :: rest2)) by
        rw [show joinSep [' '] (t :: t2 :: rest2) =
              t ++ [' '] ++ joinSep [' '] (t2 :: rest2) from rfl,
            List.append_assoc]]
    cases t with
    | nil => exact absurd rfl ht
    | cons c ct => rfl

theorem reverse_head_joinSep :
    ∀ (rest : List Str) (t : Str), t ≠ [] → (∀ x ∈ rest, x ≠ []) →
      ∃ (c : Char) (tl : Str),
        (joinSep [' '] (t :: rest)).reverse = c :: tl ∧
        (c ∈ t ∨ ∃ x ∈ rest, c ∈ x) := by
  intro rest
  induction rest with
  | nil =>
    intro t ht _
    rcases hr : t.reverse with _ | ⟨c, tl⟩
    · exact absurd (by simpa using congrArg List.reverse hr) ht
    · refine ⟨c, tl, hr, Or.inl ?_⟩
      have : c ∈ t.reverse := by rw [hr]; simp
      simpa using this
  | cons t2 rest2 ih =>
    intro t ht hrest
    rcases ih t2 (hrest t2 (List.mem_cons_self _ _))
      (fun x hx => hrest x (List.mem_cons_of_mem _ hx)) with ⟨c, tl, hc, hmem⟩
    refine ⟨c, tl ++ (' ' :: t.reverse), ?_, ?_⟩
    · rw [show joinSep [' '] (t :: t2 :: rest2) =
            t ++ [' '] ++ joinSep [' '] (t2 :: rest2) from rfl]
      rw [List.reverse_append, List.reverse_append, hc]
      simp
    · rcases hmem with h | ⟨x, hx, hcx⟩
      · exact Or.inr ⟨t2, List.mem_cons_self _ _, h⟩
      · exact Or.inr ⟨x, List.mem_cons_of_mem _ hx, hcx⟩

/-- A rendered directive line (space-joined tokens) survives the trim
and filter of the line pipeline untouched. -/
theorem dataLine_clean (kw : Str) (rest : List Str)
    (hkw : isToken kw) (hrest : ∀ x ∈ rest, isToken x)
    (hhash : ∀ c ∈ kw, c ≠ '#') :
    jsTrim (joinSep [' '] (kw :: rest)) = joinSep [' '] (kw :: rest) ∧
    ((joinSep [' '] (kw :: rest)).isEmpty = false ∧
      strStartsWith (joinSep [' '] (kw :: rest)) (str "#") = false) := by
  obtain ⟨c, ct, hk⟩ : ∃ c ct, kw = c :: ct := by
    cases kw with
    | nil => exact absurd rfl hkw.1
    | cons c ct => exact ⟨c, ct, rfl⟩
  have hhead : (joinSep [' '] (kw :: rest)).head? = some c := by
    rw [head?_joinSep kw rest hkw.1, hk]; rfl
  obtain ⟨l0, hl⟩ : ∃ l0, joinSep [' '] (kw :: rest) = c :: l0 := by
    rcases he : joinSep [' '] (kw :: rest) with _ | ⟨c0, l0⟩
    · rw [he] at hhead; cases hhead
    · rw [he] at hhead
      injection hhead with h'
      exact ⟨l0, by rw [h']⟩
  have hcmem : c ∈ kw := by rw [hk]; exact List.mem_cons_self _ _
  have hcws : isWsChar c = false := hkw.2 c hcmem
  refine ⟨?_, ?_, ?_⟩
  · apply jsTrim_eq_self
    · rw [hl, List.dropWhile_cons, if_neg (by simp [hcws])]
    · rcases reverse_head_joinSep rest kw hkw.1 (fun x hx => (hrest x hx).1)
        with ⟨cr, tlr, hrev, hmemr⟩
      have hcrws : isWsChar cr = false := by
        rcases hmemr with h' | ⟨x, hx, hcx⟩
        · exact hkw.2 cr h'
        · exact (hrest x hx).2 cr hcx
      rw [hrev, List.dropWhile_cons, if_neg (by simp [hcrws])]
  · rw [hl]; rfl
  · rw [hl]
    show List.isPrefixOf ('#' :: []) (c :: l0) = false
    have hc : c ≠ '#' := hhash c hcmem
    simp only [List.isPrefixOf, Bool.and_eq_false_iff]
    left
    simp [beq_iff_eq]
    exact fun h' => absurd h'.symm hc

theorem jsTrim_hash (rest : Str) : ∃ r, jsTrim ('#' :: rest) = '#' :: r := by
  unfold jsTrim
  rw [List.dropWhile_cons, if_neg (by decide)]
  rw [List.reverse_cons, List.dropWhile_append]
  by_cases h : (rest.reverse.dropWhile isWsChar).isEmpty
  · rw [if_pos h]
    exact ⟨[], by decide⟩
  · rw [if_neg h]
    refine ⟨(rest.reverse.dropWhile isWsChar).reverse, ?_⟩
    rw [List.reverse_append]
    rfl

/-- A `#` comment line is dropped by the import pipeline's filter. -/
theorem comment_filtered (rest : Str) :
    (!(jsTrim ('#' :: rest)).isEmpty &&
      !(strStartsWith (jsTrim ('#' :: rest)) (str "#"))) = false := by
  rcases jsTrim_hash rest with ⟨r, hr⟩
  rw [hr]
  show (true && !(List.isPrefixOf ('#' :: []) ('#' :: r))) = false
  simp [List.isPrefixOf]

/-! ### swversion extraction on rendered feature tokens -/

theorem jsUpperChar_colon {c : Char} (h : jsUpperChar c = ':') : c = ':' := by
  unfold jsUpperChar at h
  by_cases hc : (97 ≤ c.toNat && c.toNat ≤ 122) = true
  · rw [if_pos hc] at h
    simp only [Bool.and_eq_true, decide_eq_true_eq] at hc
    have h1 : (Char.ofNat (c.toNat - 32)).toNat = (':' : Char).toNat :=
      congrArg Char.toNat h
    rw [toNat_charOfNat (c.toNat - 32) (by omega)] at h1
    have h2 : (':' : Char).toNat = 58 := by decide
    omega
  · rw [if_neg hc] at h
    exact h

theorem swversionAt_cons_ne (c : Char) (t : Str) (hc : c ≠ ':') :
    swversionAt (c :: t) = none := by
  unfold swversionAt
  rw [if_neg]
  intro heq
  rw [show (c :: t).take 11 = c :: t.take 10 from rfl] at heq
  rw [show jsUpper (c :: t.take 10) = jsUpperChar c :: jsUpper (t.take 10)
    from rfl] at heq
  rw [show str ":SWVERSION=" = ':' :: str "SWVERSION=" from by decide] at heq
  injection heq with h1 _
  exact hc (jsUpperChar_colon h1)

theorem swversionSearch_none :
    ∀ f : Str, (∀ c ∈ f, c ≠ ':') → swversionSearch f = none := by
  intro f
  induction f with
  | nil => intro _; rfl
  | cons c t ih =>
    intro h
    unfold swversionSearch
    rw [swversionAt_cons_ne c t (h c (List.mem_cons_self _ _))]
    exact ih (fun x hx => h x (List.mem_cons_of_mem _ hx))

theorem swversionAt_hit (v : Str) (hv : v ≠ [])
    (hd : ∀ c ∈ v, isDigitChar c = true) :
    swversionAt (str ":SWVERSION=" ++ v) = some v := by
  unfold swversionAt
  rw [show (11 : Nat) = (str ":SWVERSION=").length from by decide]
  rw [List.take_left, List.drop_left]
  rw [if_pos (by decide)]
  have htw : v.takeWhile isDigitChar = v := by
    have := takeWhile_append_of_all (p := isDigitChar) v [] hd
    simpa using this
  rw [htw, if_neg (by simp [List.isEmpty_iff, hv])]

theorem swversionSearch_suffix :
    ∀ (f v : Str), (∀ c ∈ f, c ≠ ':') → v ≠ [] →
      (∀ c ∈ v, isDigitChar c = true) →
      swversionSearch (f ++ (str ":SWVERSION=" ++ v)) = some v := by
  intro f
  induction f with
  | nil =>
    intro v _ hv hd
    rw [List.nil_append]
    rw [show str ":SWVERSION=" ++ v = ':' :: (str "SWVERSION=" ++ v) from rfl]
    unfold swversionSearch
    rw [show (':' : Char) :: (str "SWVERSION=" ++ v) =
          str ":SWVERSION=" ++ v from rfl]
    rw [swversionAt_hit v hv hd]
  | cons c t ih =>
    intro v h hv hd
    rw [List.cons_append]
    unfold swversionSearch
    rw [swversionAt_cons_ne c _ (h c (List.mem_cons_self _ _))]
    exact ih v (fun x hx => h x (List.mem_cons_of_mem _ hx)) hv hd

theorem takeWhile_ne_colon_self (f : Str) (hf : ∀ c ∈ f, c ≠ ':') :
    f.takeWhile (fun c => c ≠ ':') = f := by
  have := takeWhile_append_of_all (p := fun c => decide (c ≠ ':')) f []
    (fun c hc => by simp [hf c hc])
  simpa using this

theorem takeWhile_ne_colon_pre (f v : Str) (hf : ∀ c ∈ f, c ≠ ':') :
    (f ++ (str ":SWVERSION=" ++ v)).takeWhile (fun c => c ≠ ':') = f := by
  rw [takeWhile_append_of_all f _ (fun c hc => by simp [hf c hc])]
  rw [show str ":SWVERSION=" ++ v = ':' :: (str "SWVERSION=" ++ v) from rfl]
  rw [List.takeWhile_cons]
  simp

/-! ### Rendered line shapes -/

/-- The feature token as exported (with optional `:SWVERSION=` suffix). -/
def featTok (r : OptRule) : Str :=
  if r.versionFilter.isEmpty then r.feature
  else r.feature ++ str ":SWVERSION=" ++ r.versionFilter

/-- The token list of one exported rule line. -/
def ruleToks (r : OptRule) : List Str :=
  if r.type = .MAX ∨ r.type = .RESERVE then
    [ruleTypeStr r.type, intToStr r.count, featTok r, r.targetType,
      r.groupOrUser]
  else
    [ruleTypeStr r.type, featTok r, r.targetType, r.groupOrUser]

theorem ruleLine_eq_join (r : OptRule) :
    ruleLine r = joinSep [' '] (ruleToks r) := by
  unfold ruleLine ruleToks featTok
  by_cases h : r.type = .MAX ∨ r.type = .RESERVE
  · rw [if_pos h, if_pos h]
    simp [joinSep, List.append_assoc]
  · rw [if_neg h, if_neg h]
    simp [joinSep, List.append_assoc]

theorem timeoutall_line_eq_join (x : Str) :
    str "TIMEOUTALL " ++ x = joinSep [' '] [str "TIMEOUTALL", x] := by
  rw [show str "TIMEOUTALL " = str "TIMEOUTALL" ++ [' '] from by decide]
  rfl

theorem timeout_line_eq_join (f s : Str) :
    str "TIMEOUT " ++ f ++ [' '] ++ s =
      joinSep [' '] [str "TIMEOUT", f, s] := by
  rw [show str "TIMEOUT " = str "TIMEOUT" ++ [' '] from by decide]
  simp [joinSep, List.append_assoc]

theorem group_line_eq_join (n : Str) (us : List Str) (hus : us ≠ []) :
    str "GROUP " ++ n ++ [' '] ++ joinSep [' '] us =
      joinSep [' '] (str "GROUP" :: n :: us) := by
  rcases us with _ | ⟨u, us'⟩
  · exact absurd rfl hus
  rw [show str "GROUP " = str "GROUP" ++ [' '] from by decide]
  rw [show joinSep [' '] (str "GROUP" :: n :: u :: us') =
        str "GROUP" ++ [' '] ++ joinSep [' '] (n :: u :: us') from rfl]
  rw [show joinSep [' '] (n :: u :: us') =
        n ++ [' '] ++ joinSep [' '] (u :: us') from rfl]
  simp [List.append_assoc]

theorem ruleTypeStr_token (ty : RuleType) : isToken (ruleTypeStr ty) := by
  cases ty <;> exact ⟨by decide, by decide⟩

theorem ruleTypeStr_no_hash (ty : RuleType) :
    ∀ c ∈ ruleTypeStr ty, c ≠ '#' := by
  cases ty <;> exact (by decide)

theorem isToken_featTok (r : OptRule) (hr : WFRule r) : isToken (featTok r) := by
  unfold featTok
  split
  · exact hr.1
  · constructor
    · simp [hr.1.1]
    · intro c hc
      rw [List.append_assoc] at hc
      rcases List.mem_append.mp hc with h1 | h2
      · exact hr.1.2 c h1
      · rcases List.mem_append.mp h2 with h3 | h4
        · have : ∀ c ∈ str ":SWVERSION=", isWsChar c = false := by decide
          exact this c h3
        · rcases hr.2.2.2.2.2.2.2 with hv | ⟨_, hvd⟩
          · rw [hv] at h4; cases h4
          · exact digit_not_ws (hvd c h4)

theorem ruleToks_tokens (r : OptRule) (hr : WFRule r) :
    ∀ t ∈ ruleToks r, isToken t := by
  unfold ruleToks
  split
  · intro t ht
    simp only [List.mem_cons, List.not_mem_nil, or_false] at ht
    rcases ht with rfl | rfl | rfl | rfl | rfl
    · exact ruleTypeStr_token r.type
    · exact isToken_intToStr_pos r.count hr.2.2.2.2.2.1
    · exact isToken_featTok r hr
    · exact hr.2.2.2.1
    · exact hr.2.2.1
  · intro t ht
    simp only [List.mem_cons, List.not_mem_nil, or_false] at ht
    rcases ht with rfl | rfl | rfl | rfl
    · exact ruleTypeStr_token r.type
    · exact isToken_featTok r hr
    · exact hr.2.2.2.1
    · exact hr.2.2.1

/-! ### No rendered line contains a newline -/

/-- `noNL l`: the line `l` contains no `'\n'`, so `split('\n')` keeps
it intact. -/
def noNL (l : Str) : Prop := ∀ x ∈ l, x ≠ '\n'

instance (l : Str) : Decidable (noNL l) := by
  unfold noNL; infer_instance

theorem noNL_append {a b : Str} (ha : noNL a) (hb : noNL b) :
    noNL (a ++ b) := by
  intro x hx
  rcases List.mem_append.mp hx with h | h
  · exact ha x h
  · exact hb x h

theorem noNL_of_token {t : Str} (h : ∀ c ∈ t, isWsChar c = false) :
    noNL t := fun c hc => ws_ne_of_token (h c hc)

theorem noNL_natToStr (n : Nat) : noNL (natToStr n) :=
  noNL_of_token (fun c hc => digit_not_ws (natToStr_all_digits n c hc))

theorem noNL_intToStr (i : Int) : noNL (intToStr i) := by
  unfold intToStr
  split
  · intro x hx
    rcases List.mem_cons.mp hx with rfl | h
    · decide
    · exact noNL_natToStr _ x h
  · exact noNL_natToStr _

theorem noNL_formatDuration (q : Rat) : noNL (formatDuration q) := by
  unfold formatDuration
  split
  · decide
  split
  · exact noNL_append (noNL_intToStr _) (by decide)
  · exact noNL_append
      (noNL_append
        (noNL_append (noNL_intToStr _) (by decide)) (noNL_intToStr _))
      (by decide)

theorem noNL_joinSep_space {toks : List Str}
    (h : ∀ t ∈ toks, isToken t) : noNL (joinSep [' '] toks) := by
  intro x hx
  rcases mem_joinSep_space toks hx with rfl | ⟨t, ht, hxt⟩
  · decide
  · exact ws_ne_of_token ((h t ht).2 x hxt)

theorem generateOptionsLines_no_nl (m : OptionsModel) (d s : Str)
    (hwf : WFOptions m) (hd : noNL d) (hs : noNL s) :
    ∀ l ∈ generateOptionsLines m d s, noNL l := by
  intro l hl
  unfold generateOptionsLines at hl
  simp only [List.mem_append] at hl
  rcases hl with ((((h1 | h2) | h3) | h4) | h5) | h6
  · simp only [List.mem_cons, List.not_mem_nil, or_false] at h1
    rcases h1 with rfl | rfl | rfl | rfl
    · decide
    · exact noNL_append (by decide) hd
    · exact noNL_append (by decide) hs
    · intro x hx; cases hx
  · split at h2
    · simp only [List.mem_cons, List.not_mem_nil, or_false] at h2
      rcases h2 with rfl | rfl
      · exact noNL_append
          (noNL_append (by decide) (noNL_formatDuration _)) (by decide)
      · exact noNL_append (by decide) (noNL_intToStr _)
    · simp only [List.mem_cons, List.not_mem_nil, or_false] at h2
      subst h2
      decide
  · split at h3
    · simp only [List.cons_append, List.nil_append, List.mem_cons] at h3
      rcases h3 with rfl | rfl | hmap
      · intro x hx; cases hx
      · decide
      · rcases List.mem_map.mp hmap with ⟨ft, hft, rfl⟩
        have hwft := hwf.2.1 ft hft
        exact noNL_append
          (noNL_append
            (noNL_append (by decide) (noNL_of_token hwft.1.2)) (by decide))
          (noNL_intToStr _)
    · simp at h3
  · simp only [List.mem_cons, List.not_mem_nil, or_false] at h4
    subst h4
    intro x hx; cases hx
  · split at h5
    · simp only [List.cons_append, List.nil_append, List.mem_cons,
        List.mem_append, List.not_mem_nil, or_false] at h5
      rcases h5 with rfl | hmap | rfl
      · decide
      · rcases List.mem_filterMap.mp hmap with ⟨g, hg, hgl⟩
        split at hgl
        · injection hgl with hgl
          subst hgl
          have hwg := hwf.2.2.1 g hg
          refine noNL_append
            (noNL_append
              (noNL_append (by decide) (noNL_of_token hwg.1.2)) (by decide))
            (noNL_joinSep_space hwg.2.2)
        · cases hgl
      · intro x hx; cases hx
    · simp at h5
  · split at h6
    · simp only [List.cons_append, List.nil_append, List.mem_cons] at h6
      rcases h6 with rfl | hmap
      · decide
      · rcases List.mem_map.mp hmap with ⟨r, hr, rfl⟩
        rw [ruleLine_eq_join]
        exact noNL_joinSep_space (ruleToks_tokens r (hwf.2.2.2 r hr))
    · simp at h6

theorem splitCh_join_of_ne_nil (c : Char) (ls : List Str) (h : ls ≠ [])
    (hall : ∀ l ∈ ls, ∀ x ∈ l, x ≠ c) :
    splitCh c (joinSep [c] ls) = ls := by
  cases ls with
  | nil => exact absurd rfl h
  | cons t rest =>
    exact splitCh_join c t rest (hall t (List.mem_cons_self _ _))
      (fun l hl => hall l (List.mem_cons_of_mem _ hl))

theorem generateOptionsLines_ne_nil (m : OptionsModel) (d s : Str) :
    generateOptionsLines m d s ≠ [] := by
  unfold generateOptionsLines
  simp

/-! ### The cleaned line list of a rendered options file -/

/-- The data (directive) lines of an export, in order. -/
def dataLines (m : OptionsModel) : List Str :=
  (if m.timeoutEnabled then [str "TIMEOUTALL " ++ intToStr m.timeout]
   else [])
  ++ m.featureTimeouts.map
      (fun ft => str "TIMEOUT " ++ ft.feature ++ [' '] ++ intToStr ft.seconds)
  ++ m.groups.map
      (fun g => str "GROUP " ++ g.name ++ [' '] ++ joinSep [' '] g.users)
  ++ m.rules.map ruleLine

/-- The keep-predicate of the import pipeline's filter. -/
def keepLine (l : Str) : Bool := !l.isEmpty && !(strStartsWith l (str "#"))

theorem importedLines_eq (text : Str) :
    importedLines text = ((splitCh '\n' text).map jsTrim).filter keepLine :=
  rfl

theorem keep_data (kw : Str) (rest : List Str) (hkw : isToken kw)
    (hrest : ∀ x ∈ rest, isToken x) (hhash : ∀ c ∈ kw, c ≠ '#') :
    jsTrim (joinSep [' '] (kw :: rest)) = joinSep [' '] (kw :: rest) ∧
    keepLine (joinSep [' '] (kw :: rest)) = true := by
  obtain ⟨h1, h2, h3⟩ := dataLine_clean kw rest hkw hrest hhash
  refine ⟨h1, ?_⟩
  unfold keepLine
  rw [h2, h3]
  rfl

theorem drop_comment (rest : Str) :
    keepLine (jsTrim ('#' :: rest)) = false := comment_filtered rest

theorem drop_empty : keepLine (jsTrim []) = false := rfl

theorem trimFilter_map_id {α : Type} (L : List α) (f : α → Str)
    (h : ∀ a ∈ L, jsTrim (f a) = f a ∧ keepLine (f a) = true) :
    ((L.map f).map jsTrim).filter keepLine = L.map f := by
  induction L with
  | nil => rfl
  | cons a t ih =>
    simp only [List.map_cons, List.filter_cons]
    rw [(h a (List.mem_cons_self _ _)).1,
      if_pos (h a (List.mem_cons_self _ _)).2,
      ih (fun b hb => h b (List.mem_cons_of_mem _ hb))]

theorem groups_filterMap (gs : List OptGroup) (h : ∀ g ∈ gs, WFGroup g) :
    gs.filterMap
      (fun g =>
        if 0 < g.users.length then
          some (str "GROUP " ++ g.name ++ [' '] ++ joinSep [' '] g.users)
        else none)
    = gs.map
        (fun g => str "GROUP " ++ g.name ++ [' '] ++ joinSep [' '] g.users) := by
  induction gs with
  | nil => rfl
  | cons g t ih =>
    have hg := h g (List.mem_cons_self _ _)
    have hpos : 0 < g.users.length := by
      rcases hu : g.users with _ | ⟨u, us⟩
      · exact absurd hu hg.2.1
      · simp
    rw [List.filterMap_cons, if_pos hpos, List.map_cons,
      ih (fun x hx => h x (List.mem_cons_of_mem _ hx))]

theorem ruleToks_shape (r : OptRule) :
    ∃ rest, ruleToks r = ruleTypeStr r.type :: rest := by
  unfold ruleToks
  split
  · exact ⟨_, rfl⟩
  · exact ⟨_, rfl⟩

theorem keep_rule_line (r : OptRule) (hr : WFRule r) :
    jsTrim (ruleLine r) = ruleLine r ∧ keepLine (ruleLine r) = true := by
  rw [ruleLine_eq_join]
  obtain ⟨rest, hsh⟩ := ruleToks_shape r
  rw [hsh]
  refine keep_data (ruleTypeStr r.type) rest (ruleTypeStr_token r.type)
    (fun x hx => ?_) (ruleTypeStr_no_hash r.type)
  exact ruleToks_tokens r hr x (by rw [hsh]; exact List.mem_cons_of_mem _ hx)

/-- The cleaned line list of a rendered options file is exactly its
directive lines. -/
theorem importedLines_generate (m : OptionsModel) (d s : Str)
    (hwf : WFOptions m) (hd : noNL d) (hs : noNL s) :
    importedLines (generateOptionsFile m d s) = dataLines m := by
  rw [importedLines_eq,
    show generateOptionsFile m d s =
      joinSep ['\n'] (generateOptionsLines m d s) from rfl,
    splitCh_join_of_ne_nil '\n' _ (generateOptionsLines_ne_nil m d s)
      (generateOptionsLines_no_nl m d s hwf hd hs)]
  unfold generateOptionsLines dataLines
  rw [List.map_append, List.map_append, List.map_append, List.map_append,
    List.map_append, List.filter_append, List.filter_append,
    List.filter_append, List.filter_append, List.filter_append]
  have hc1 : (([str "# SolidNetWork License Options File (sw_d.opt)",
      str "# Generated by SNL License Dashboard · " ++ d,
      str "# Server: " ++ s, ([] : Str)].map jsTrim).filter keepLine)
      = [] := by
    simp only [List.map_cons, List.map_nil, List.filter_cons, List.filter_nil]
    rw [show str "# SolidNetWork License Options File (sw_d.opt)" =
          '#' :: str " SolidNetWork License Options File (sw_d.opt)"
        from by decide]
    rw [show str "# Generated by SNL License Dashboard · " =
          '#' :: str " Generated by SNL License Dashboard · "
        from by decide, List.cons_append]
    rw [show str "# Server: " = '#' :: str " Server: " from by decide,
      List.cons_append]
    rw [drop_comment, drop_comment, drop_comment, drop_empty]
    simp
  have hc2 : (((if m.timeoutEnabled then
        [str "# Return idle licenses after " ++
           formatDuration ((m.timeout : Rat) / 60) ++ str " of inactivity",
         str "TIMEOUTALL " ++ intToStr m.timeout]
      else [str "# No global idle timeout configured"]).map jsTrim).filter
        keepLine)
      = (if m.timeoutEnabled then [str "TIMEOUTALL " ++ intToStr m.timeout]
         else []) := by
    by_cases h : m.timeoutEnabled = true
    · rw [if_pos h, if_pos h]
      simp only [List.map_cons, List.map_nil, List.filter_cons,
        List.filter_nil]
      rw [show str "# Return idle licenses after " =
            '#' :: str " Return idle licenses after " from by decide,
        List.cons_append, List.cons_append]
      rw [drop_comment]
      have hk := keep_data (str "TIMEOUTALL") [intToStr m.timeout]
        ⟨by decide, by decide⟩
        (fun x hx => by
          simp only [List.mem_singleton] at hx
          subst hx
          exact isToken_intToStr_pos _ (hwf.1 h))
        (by decide)
      rw [timeoutall_line_eq_join, hk.1, if_pos hk.2]
      simp
    · rw [if_neg h, if_neg h]
      simp only [List.map_cons, List.map_nil, List.filter_cons,
        List.filter_nil]
      rw [show str "# No global idle timeout configured" =
            '#' :: str " No global idle timeout configured" from by decide]
      rw [drop_comment]
      simp
  have hc3 : (((if 0 < m.featureTimeouts.length then
        [[], str "# Per-feature idle timeouts (override global)"] ++
          m.featureTimeouts.map
            (fun ft => str "TIMEOUT " ++ ft.feature ++ [' '] ++
              intToStr ft.seconds)
      else []).map jsTrim).filter keepLine)
      = m.featureTimeouts.map
          (fun ft => str "TIMEOUT " ++ ft.feature ++ [' '] ++
            intToStr ft.seconds) := by
    by_cases h : 0 < m.featureTimeouts.length
    · rw [if_pos h]
      simp only [List.cons_append, List.nil_append, List.map_cons,
        List.filter_cons]
      rw [drop_empty]
      rw [show str "# Per-feature idle timeouts (override global)" =
            '#' :: str " Per-feature idle timeouts (override global)"
          from by decide]
      rw [drop_comment]
      rw [trimFilter_map_id _ _ (fun ft hft => by
        rw [timeout_line_eq_join]
        exact keep_data (str "TIMEOUT") [ft.feature, intToStr ft.seconds]
          ⟨by decide, by decide⟩
          (fun x hx => by
            simp only [List.mem_cons, List.not_mem_nil, or_false] at hx
            rcases hx with rfl | rfl
            · exact (hwf.2.1 ft hft).1
            · exact isToken_intToStr_pos _ (hwf.2.1 ft hft).2)
          (by decide))]
      simp
    · rw [if_neg h]
      have hfe : m.featureTimeouts = [] := by
        rcases hx : m.featureTimeouts with _ | _
        · rfl
        · rw [hx] at h; simp at h
      rw [hfe]
      rfl
  have hc4 : ((([([] : Str)]).map jsTrim).filter keepLine) = [] := by
    simp only [List.map_cons, List.map_nil, List.filter_cons, List.filter_nil]
    rw [drop_empty]
    simp
  have hc5 : (((if 0 < m.groups.length then
        [str "# User Groups"] ++
          m.groups.filterMap
            (fun g =>
              if 0 < g.users.length then
                some (str "GROUP " ++ g.name ++ [' '] ++ joinSep [' '] g.users)
              else none)
          ++ [[]]
      else []).map jsTrim).filter keepLine)
      = m.groups.map
          (fun g => str "GROUP " ++ g.name ++ [' '] ++
            joinSep [' '] g.users) := by
    by_cases h : 0 < m.groups.length
    · rw [if_pos h, groups_filterMap m.groups hwf.2.2.1]
      simp only [List.cons_append, List.nil_append, List.map_cons,
        List.filter_cons, List.map_append, List.filter_append]
      rw [show str "# User Groups" = '#' :: str " User Groups"
          from by decide]
      rw [drop_comment]
      rw [trimFilter_map_id _ _ (fun g hg => by
        rw [group_line_eq_join g.name g.users (hwf.2.2.1 g hg).2.1]
        exact keep_data (str "GROUP") (g.name :: g.users)
          ⟨by decide, by decide⟩
          (fun x hx => by
            rcases List.mem_cons.mp hx with rfl | hx'
            · exact (hwf.2.2.1 g hg).1
            · exact (hwf.2.2.1 g hg).2.2 x hx')
          (by decide))]
      simp only [List.map_cons, List.map_nil, List.filter_cons,
        List.filter_nil]
      rw [drop_empty]
      simp
    · rw [if_neg h]
      have hge : m.groups = [] := by
        rcases hx : m.groups with _ | _
        · rfl
        · rw [hx] at h; simp at h
      rw [hge]
      rfl
  have hc6 : (((if 0 < m.rules.length then
        [str "# License Rules"] ++ m.rules.map ruleLine
      else []).map jsTrim).filter keepLine)
      = m.rules.map ruleLine := by
    by_cases h : 0 < m.rules.length
    · rw [if_pos h]
      simp only [List.cons_append, List.nil_append, List.map_cons,
        List.filter_cons]
      rw [show str "# License Rules" = '#' :: str " License Rules"
          from by decide]
      rw [drop_comment]
      rw [trimFilter_map_id _ _
        (fun r hr => keep_rule_line r (hwf.2.2.2 r hr))]
      simp
    · rw [if_neg h]
      have hre : m.rules = [] := by
        rcases hx : m.rules with _ | _
        · rfl
        · rw [hx] at h; simp at h
      rw [hre]
      rfl
  rw [hc1, hc2, hc3, hc4, hc5, hc6]
  simp

/-! ### One import-loop step on each rendered directive line -/

theorem featTok_takeWhile (r : OptRule) (hr : WFRule r) :
    (featTok r).takeWhile (fun c => c ≠ ':') = r.feature := by
  unfold featTok
  by_cases hv : r.versionFilter.isEmpty
  · rw [if_pos hv]
    exact takeWhile_ne_colon_self r.feature hr.2.1
  · rw [if_neg hv, List.append_assoc]
    exact takeWhile_ne_colon_pre r.feature r.versionFilter hr.2.1

theorem featTok_swversion (r : OptRule) (hr : WFRule r) :
    (swversionSearch (featTok r)).getD [] = r.versionFilter := by
  unfold featTok
  by_cases hv : r.versionFilter.isEmpty
  · rw [if_pos hv]
    rw [swversionSearch_none r.feature (fun c hc => hr.2.1 c hc)]
    simp [List.isEmpty_iff.mp hv]
  · rw [if_neg hv, List.append_assoc]
    rcases hr.2.2.2.2.2.2.2 with h0 | ⟨hne, hdi⟩
    · rw [h0] at hv
      simp at hv
    · rw [swversionSearch_suffix r.feature r.versionFilter hr.2.1 hne hdi]
      rfl

theorem optRule_eta (r : OptRule) (ty : RuleType) (h : r.type = ty) :
    ({ type := ty, count := r.count, feature := r.feature,
       groupOrUser := r.groupOrUser, targetType := r.targetType,
       versionFilter := r.versionFilter } : OptRule) = r := by
  rcases r with ⟨t, c, f, g, tt, v⟩
  cases h
  rfl

theorem importLine_timeoutall (lu : List Str) (acc : ImportAcc) (t : Int)
    (ht : 0 < t) :
    importLine lu acc (str "TIMEOUTALL " ++ intToStr t) =
      { acc with
          model := { acc.model with timeoutEnabled := true, timeout := t },
          foundTimeout := true } := by
  have hsplit : splitWs (str "TIMEOUTALL " ++ intToStr t) =
      [str "TIMEOUTALL", intToStr t] := by
    rw [timeoutall_line_eq_join]
    refine splitWs_join _ (fun x hx => ?_)
    simp only [List.mem_cons, List.not_mem_nil, or_false] at hx
    rcases hx with rfl | rfl
    · exact ⟨by decide, by decide⟩
    · exact isToken_intToStr_pos t ht
  unfold importLine
  rw [hsplit]
  simp only [List.getD_cons_zero, List.getD_cons_succ, List.length_cons,
    List.length_nil]
  rw [if_pos (by exact ⟨by decide, by omega⟩)]
  rw [parseIntJS_intToStr_pos t ht]
  unfold jsOrInt
  simp [ht.ne']

theorem importLine_timeout (lu : List Str) (acc : ImportAcc)
    (ft : FeatureTimeout) (hft : WFFeatureTimeout ft) :
    importLine lu acc
        (str "TIMEOUT " ++ ft.feature ++ [' '] ++ intToStr ft.seconds) =
      { acc with
          newFeatureTimeouts := acc.newFeatureTimeouts ++ [ft] } := by
  have hsplit : splitWs
      (str "TIMEOUT " ++ ft.feature ++ [' '] ++ intToStr ft.seconds) =
      [str "TIMEOUT", ft.feature, intToStr ft.seconds] := by
    rw [timeout_line_eq_join]
    refine splitWs_join _ (fun x hx => ?_)
    simp only [List.mem_cons, List.not_mem_nil, or_false] at hx
    rcases hx with rfl | rfl | rfl
    · exact ⟨by decide, by decide⟩
    · exact hft.1
    · exact isToken_intToStr_pos _ hft.2
  unfold importLine
  rw [hsplit]
  simp only [List.getD_cons_zero, List.getD_cons_succ, List.length_cons,
    List.length_nil]
  rw [if_neg (by decide), if_pos (by exact ⟨by decide, by omega⟩)]
  rw [parseIntJS_intToStr_pos _ hft.2]
  unfold jsOrInt
  simp [hft.2.ne']

theorem importLine_group (lu : List Str) (acc : ImportAcc) (g : OptGroup)
    (hg : WFGroup g) :
    importLine lu acc
        (str "GROUP " ++ g.name ++ [' '] ++ joinSep [' '] g.users) =
      { acc with
          newGroups := acc.newGroups ++ [g],
          newCustomUsers := g.users.foldl
            (fun l u => if u ∈ lu ∨ u ∈ l then l else l ++ [u])
            acc.newCustomUsers } := by
  have hsplit : splitWs
      (str "GROUP " ++ g.name ++ [' '] ++ joinSep [' '] g.users) =
      str "GROUP" :: g.name :: g.users := by
    rw [group_line_eq_join g.name g.users hg.2.1]
    refine splitWs_join _ (fun x hx => ?_)
    rcases List.mem_cons.mp hx with rfl | hx'
    · exact ⟨by decide, by decide⟩
    · rcases List.mem_cons.mp hx' with rfl | hx''
      · exact hg.1
      · exact hg.2.2 x hx''
  unfold importLine
  rw [hsplit]
  simp only [List.getD_cons_zero, List.getD_cons_succ, List.length_cons,
    List.drop_succ_cons, List.drop_zero]
  rw [if_neg (by
      rintro ⟨h1, _⟩
      revert h1
      decide),
    if_neg (by
      rintro ⟨h1, _⟩
      revert h1
      decide),
    if_pos (by exact ⟨by decide, by omega⟩)]

theorem importLine_rule (lu : List Str) (acc : ImportAcc) (r : OptRule)
    (hr : WFRule r) :
    importLine lu acc (ruleLine r) =
      { acc with newRules := acc.newRules ++ [r] } := by
  have hsplit : splitWs (ruleLine r) = ruleToks r := by
    rw [ruleLine_eq_join]
    exact splitWs_join _ (ruleToks_tokens r hr)
  have hcnt : jsOrInt (parseIntJS (intToStr r.count)) 1 = r.count := by
    rw [parseIntJS_intToStr_pos r.count hr.2.2.2.2.2.1]
    unfold jsOrInt
    simp [hr.2.2.2.2.2.1.ne']
  have hftw := featTok_takeWhile r hr
  have hfv := featTok_swversion r hr
  have htt := hr.2.2.2.2.1
  unfold importLine
  rw [hsplit]
  rcases htc : r.type with _ | _ | _ | _ | _ | _
  · rw [show ruleToks r = [ruleTypeStr r.type, intToStr r.count, featTok r,
        r.targetType, r.groupOrUser] from by
          unfold ruleToks; rw [if_pos (Or.inl htc)], htc]
    simp only [ruleTypeStr, List.getD_cons_zero, List.getD_cons_succ,
      List.length_cons, List.length_nil]
    rw [if_neg (by decide), if_neg (by decide), if_neg (by decide),
      if_pos (by exact ⟨by decide, by omega⟩), if_pos (by decide)]
    rw [hcnt, hftw, htt, hfv, optRule_eta r .MAX htc]
  · rw [show ruleToks r = [ruleTypeStr r.type, intToStr r.count, featTok r,
        r.targetType, r.groupOrUser] from by
          unfold ruleToks; rw [if_pos (Or.inr htc)], htc]
    simp only [ruleTypeStr, List.getD_cons_zero, List.getD_cons_succ,
      List.length_cons, List.length_nil]
    rw [if_neg (by decide), if_neg (by decide), if_neg (by decide),
      if_pos (by exact ⟨by decide, by omega⟩), if_neg (by decide)]
    rw [hcnt, hftw, htt, hfv, optRule_eta r .RESERVE htc]
  · have hc1 : r.count = 1 := by
      rcases hr.2.2.2.2.2.2.1 with h | h | h
      · rw [htc] at h; cases h
      · rw [htc] at h; cases h
      · exact h
    rw [show ruleToks r = [ruleTypeStr r.type, featTok r,
        r.targetType, r.groupOrUser] from by
          unfold ruleToks; rw [if_neg (by rw [htc]; rintro (h | h) <;> cases h)],
      htc]
    simp only [ruleTypeStr, List.getD_cons_zero, List.getD_cons_succ,
      List.length_cons, List.length_nil]
    rw [if_neg (by decide), if_neg (by decide), if_neg (by decide),
      if_neg (by decide), if_pos (by exact ⟨by decide, by omega⟩),
      if_pos (by decide)]
    rw [hftw, htt, hfv, ← hc1, optRule_eta r .INCLUDE htc]
  · have hc1 : r.count = 1 := by
      rcases hr.2.2.2.2.2.2.1 with h | h | h
      · rw [htc] at h; cases h
      · rw [htc] at h; cases h
      · exact h
    rw [show ruleToks r = [ruleTypeStr r.type, featTok r,
        r.targetType, r.groupOrUser] from by
          unfold ruleToks; rw [if_neg (by rw [htc]; rintro (h | h) <;> cases h)],
      htc]
    simp only [ruleTypeStr, List.getD_cons_zero, List.getD_cons_succ,
      List.length_cons, List.length_nil]
    rw [if_neg (by decide), if_neg (by decide), if_neg (by decide),
      if_neg (by decide), if_pos (by exact ⟨by decide, by omega⟩),
      if_neg (by decide), if_pos (by decide)]
    rw [hftw, htt, hfv, ← hc1, optRule_eta r .EXCLUDE htc]
  · have hc1 : r.count = 1 := by
      rcases hr.2.2.2.2.2.2.1 with h | h | h
      · rw [htc] at h; cases h
      · rw [htc] at h; cases h
      · exact h
    rw [show ruleToks r = [ruleTypeStr r.type, featTok r,
        r.targetType, r.groupOrUser] from by
          unfold ruleToks; rw [if_neg (by rw [htc]; rintro (h | h) <;> cases h)],
      htc]
    simp only [ruleTypeStr, List.getD_cons_zero, List.getD_cons_succ,
      List.length_cons, List.length_nil]
    rw [if_neg (by decide), if_neg (by decide), if_neg (by decide),
      if_neg (by decide), if_pos (by exact ⟨by decide, by omega⟩),
      if_neg (by decide), if_neg (by decide), if_pos (by decide)]
    rw [hftw, htt, hfv, ← hc1, optRule_eta r .INCLUDE_BORROW htc]
  · have hc1 : r.count = 1 := by
      rcases hr.2.2.2.2.2.2.1 with h | h | h
      · rw [htc] at h; cases h
      · rw [htc] at h; cases h
      · exact h
    rw [show ruleToks r = [ruleTypeStr r.type, featTok r,
        r.targetType, r.groupOrUser] from by
          unfold ruleToks; rw [if_neg (by rw [htc]; rintro (h | h) <;> cases h)],
      htc]
    simp only [ruleTypeStr, List.getD_cons_zero, List.getD_cons_succ,
      List.length_cons, List.length_nil]
    rw [if_neg (by decide), if_neg (by decide), if_neg (by decide),
      if_neg (by decide), if_pos (by exact ⟨by decide, by omega⟩),
      if_neg (by decide), if_neg (by decide), if_neg (by decide)]
    rw [hftw, htt, hfv, ← hc1, optRule_eta r .EXCLUDE_BORROW htc]

/-! ### Folding the import loop over whole export sections -/

theorem foldl_importLine_timeouts (lu : List Str) :
    ∀ (fts : List FeatureTimeout), (∀ ft ∈ fts, WFFeatureTimeout ft) →
      ∀ acc : ImportAcc,
      (fts.map (fun ft => str "TIMEOUT " ++ ft.feature ++ [' '] ++
          intToStr ft.seconds)).foldl (importLine lu) acc =
        { acc with newFeatureTimeouts := acc.newFeatureTimeouts ++ fts } := by
  intro fts
  induction fts with
  | nil => intro _ acc; simp
  | cons ft t ih =>
    intro hwf acc
    rw [List.map_cons, List.foldl_cons,
      importLine_timeout lu acc ft (hwf ft (List.mem_cons_self _ _)),
      ih (fun x hx => hwf x (List.mem_cons_of_mem _ hx))]
    simp

theorem foldl_importLine_groups (lu : List Str) :
    ∀ (gs : List OptGroup), (∀ g ∈ gs, WFGroup g) →
      ∀ acc : ImportAcc,
      (gs.map (fun g => str "GROUP " ++ g.name ++ [' '] ++
          joinSep [' '] g.users)).foldl (importLine lu) acc =
        { acc with
            newGroups := acc.newGroups ++ gs,
            newCustomUsers := (gs.flatMap OptGroup.users).foldl
              (fun l u => if u ∈ lu ∨ u ∈ l then l else l ++ [u])
              acc.newCustomUsers } := by
  intro gs
  induction gs with
  | nil => intro _ acc; simp
  | cons g t ih =>
    intro hwf acc
    rw [List.map_cons, List.foldl_cons,
      importLine_group lu acc g (hwf g (List.mem_cons_self _ _)),
      ih (fun x hx => hwf x (List.mem_cons_of_mem _ hx))]
    simp [List.foldl_append]

theorem foldl_importLine_rules (lu : List Str) :
    ∀ (rs : List OptRule), (∀ r ∈ rs, WFRule r) →
      ∀ acc : ImportAcc,
      (rs.map ruleLine).foldl (importLine lu) acc =
        { acc with newRules := acc.newRules ++ rs } := by
  intro rs
  induction rs with
  | nil => intro _ acc; simp
  | cons r t ih =>
    intro hwf acc
    rw [List.map_cons, List.foldl_cons,
      importLine_rule lu acc r (hwf r (List.mem_cons_self _ _)),
      ih (fun x hx => hwf x (List.mem_cons_of_mem _ hx))]
    simp

theorem foldl_importLine_dataLines (lu : List Str) (m : OptionsModel)
    (hwf : WFOptions m) :
    (dataLines m).foldl (importLine lu)
      { model := m, foundTimeout := false, newGroups := [], newRules := [],
        newFeatureTimeouts := [], newCustomUsers := [] } =
    { model := if m.timeoutEnabled then
          { m with timeoutEnabled := true, timeout := m.timeout } else m,
      foundTimeout := m.timeoutEnabled,
      newGroups := m.groups,
      newRules := m.rules,
      newFeatureTimeouts := m.featureTimeouts,
      newCustomUsers := (m.groups.flatMap OptGroup.users).foldl
        (fun l u => if u ∈ lu ∨ u ∈ l then l else l ++ [u]) [] } := by
  unfold dataLines
  rw [List.foldl_append, List.foldl_append, List.foldl_append]
  by_cases ht : m.timeoutEnabled = true
  · rw [if_pos ht, if_pos ht]
    simp only [List.foldl_cons, List.foldl_nil]
    rw [importLine_timeoutall lu _ m.timeout (hwf.1 ht)]
    rw [foldl_importLine_timeouts lu m.featureTimeouts hwf.2.1 _]
    rw [foldl_importLine_groups lu m.groups hwf.2.2.1 _]
    rw [foldl_importLine_rules lu m.rules hwf.2.2.2 _]
    simp [ht]
  · rw [if_neg ht, if_neg ht]
    simp only [List.foldl_nil]
    rw [foldl_importLine_timeouts lu m.featureTimeouts hwf.2.1 _]
    rw [foldl_importLine_groups lu m.groups hwf.2.2.1 _]
    rw [foldl_importLine_rules lu m.rules hwf.2.2.2 _]
    simp only [Bool.not_eq_true] at ht
    simp [ht]

/-- C1 (amended): for a well-formed model (non-empty groups, token-shaped
identifiers, positive counts and timeouts, digit-or-empty version filters,
count 1 for the kinds whose rendering omits it, upper-case-fixed target
kinds) and newline-free date/server strings, exporting the model and
re-importing the generated text reproduces the timeout settings, the
per-feature timeouts, the groups and the rules exactly. -/
theorem C1_options_roundtrip (lu : List Str) (m : OptionsModel) (d s : Str)
    (hwf : WFOptions m) (hd : noNL d) (hs : noNL s) :
    (importOptionsFile lu m (generateOptionsFile m d s)).timeoutEnabled
        = m.timeoutEnabled ∧
    (importOptionsFile lu m (generateOptionsFile m d s)).timeout
        = m.timeout ∧
    (importOptionsFile lu m (generateOptionsFile m d s)).featureTimeouts
        = m.featureTimeouts ∧
    (importOptionsFile lu m (generateOptionsFile m d s)).groups
        = m.groups ∧
    (importOptionsFile lu m (generateOptionsFile m d s)).rules
        = m.rules := by
  obtain ⟨te, tmo, fts, gs, rs, cu⟩ := m
  unfold importOptionsFile
  rw [importedLines_generate _ d s hwf hd hs,
    foldl_importLine_dataLines lu _ hwf]
  cases te <;> simp only [] <;> split_ifs <;> simp_all

instance (r : OptRule) : Decidable (WFRule r) := by
  unfold WFRule; infer_instance

instance (g : OptGroup) : Decidable (WFGroup g) := by
  unfold WFGroup; infer_instance

instance (ft : FeatureTimeout) : Decidable (WFFeatureTimeout ft) := by
  unfold WFFeatureTimeout; infer_instance

instance (m : OptionsModel) : Decidable (WFOptions m) := by
  unfold WFOptions; infer_instance

/-- A well-formed model exercising every export section. -/
def c1wModel : OptionsModel where
  timeoutEnabled := true
  timeout := 1800
  featureTimeouts := [⟨str "fA", 600⟩]
  groups := [⟨str "eng", [str "alice", str "bob"]⟩]
  rules := [⟨.MAX, 5, str "fB", str "eng", str "GROUP", str "2024"⟩,
            ⟨.INCLUDE, 1, str "fC", str "alice", str "USER", []⟩]
  customUsers := []

theorem C1_options_roundtrip_witness :
    WFOptions c1wModel ∧ noNL (str "2026-02-03") ∧ noNL (str "srv01") ∧
    ((importOptionsFile [] c1wModel
        (generateOptionsFile c1wModel (str "2026-02-03")
          (str "srv01"))).timeoutEnabled = c1wModel.timeoutEnabled ∧
     (importOptionsFile [] c1wModel
        (generateOptionsFile c1wModel (str "2026-02-03")
          (str "srv01"))).timeout = c1wModel.timeout ∧
     (importOptionsFile [] c1wModel
        (generateOptionsFile c1wModel (str "2026-02-03")
          (str "srv01"))).featureTimeouts = c1wModel.featureTimeouts ∧
     (importOptionsFile [] c1wModel
        (generateOptionsFile c1wModel (str "2026-02-03")
          (str "srv01"))).groups = c1wModel.groups ∧
     (importOptionsFile [] c1wModel
        (generateOptionsFile c1wModel (str "2026-02-03")
          (str "srv01"))).rules = c1wModel.rules) :=
  ⟨by decide, by decide, by decide,
    C1_options_roundtrip [] c1wModel (str "2026-02-03") (str "srv01")
      (by decide) (by decide) (by decide)⟩

/-- A model with one empty and one non-empty group. -/
def c1cModel : OptionsModel where
  timeoutEnabled := false
  timeout := 3600
  featureTimeouts := []
  groups := [⟨str "g1", []⟩, ⟨str "g2", [str "u"]⟩]
  rules := []
  customUsers := []

/-- C1 counterexample: exporting a model that contains an empty group
drops that group from the generated text entirely, so re-importing
loses it — the group set is not preserved even up to order. -/
theorem C1_counterexample :
    (importOptionsFile [] c1cModel
        (generateOptionsFile c1cModel (str "2026-02-03") (str "srv01"))).groups
      = [⟨str "g2", [str "u"]⟩] ∧
    c1cModel.groups = [⟨str "g1", []⟩, ⟨str "g2", [str "u"]⟩] := by
  decide

/-! ### C5 — the seat-cap directive keyword -/

/-- The empty base model used as the import target. -/
def baseModel : OptionsModel where
  timeoutEnabled := false
  timeout := 3600
  featureTimeouts := []
  groups := []
  rules := []
  customUsers := []

/-- C5 counterexample: a `CAP <count> <feature> <targetKind> <target>`
line is not recognised by the importer (it parses to no rule at all);
the seat-cap directive the importer accepts is spelled `MAX`. -/
theorem C5_counterexample :
    (importOptionsFile [] baseModel
        (str "CAP 3 solidworks GROUP eng")).rules = [] ∧
    (importOptionsFile [] baseModel
        (str "MAX 3 solidworks GROUP eng")).rules =
      [⟨.MAX, 3, str "solidworks", str "eng", str "GROUP", []⟩] := by
  decide

/-- Whitespace characters are fixed points of ASCII upper-casing. -/
theorem jsUpperChar_ws {c : Char} (h : isWsChar c = true) :
    jsUpperChar c = c := by
  unfold isWsChar at h
  simp only [Bool.or_eq_true, decide_eq_true_eq] at h
  rcases h with ((((h | h) | h) | h) | h) | h <;> subst h <;> decide

/-- A string whose upper-casing is a non-empty whitespace-free word is
itself a token. -/
theorem isToken_of_jsUpper {kw w : Str} (h : jsUpper kw = w)
    (hw : w ≠ []) (hnws : ∀ c ∈ w, isWsChar c = false) : isToken kw := by
  refine ⟨?_, ?_⟩
  · intro hk
    rw [hk] at h
    exact hw h.symm
  · intro c hc
    by_cases hws : isWsChar c = true
    · exfalso
      have hmem : jsUpperChar c ∈ w := by
        rw [← h]
        exact List.mem_map_of_mem _ hc
      rw [jsUpperChar_ws hws] at hmem
      rw [hnws c hmem] at hws
      cases hws
    · simpa using hws

theorem no_hash_of_jsUpper {kw w : Str} (h : jsUpper kw = w)
    (hw : ('#' : Char) ∈ w → False) : ∀ c ∈ kw, c ≠ '#' := by
  intro c hc hch
  subst hch
  apply hw
  have hmem : jsUpperChar '#' ∈ w := by
    rw [← h]
    exact List.mem_map_of_mem _ hc
  rw [show jsUpperChar '#' = '#' from by decide] at hmem
  exact hmem

/-- Any single space-joined token line passes the line pipeline. -/
theorem importedLines_single (kw : Str) (rest : List Str)
    (hkw : isToken kw) (hrest : ∀ x ∈ rest, isToken x)
    (hhash : ∀ c ∈ kw, c ≠ '#') :
    importedLines (joinSep [' '] (kw :: rest)) =
      [joinSep [' '] (kw :: rest)] := by
  have hnl : noNL (joinSep [' '] (kw :: rest)) := by
    refine noNL_joinSep_space (fun t ht => ?_)
    rcases List.mem_cons.mp ht with rfl | ht'
    · exact hkw
    · exact hrest t ht'
  have hsp : splitCh '\n' (joinSep [' '] (kw :: rest)) =
      [joinSep [' '] (kw :: rest)] := by
    have h := splitCh_join_of_ne_nil '\n' [joinSep [' '] (kw :: rest)]
      (by simp)
      (by
        intro l hl x hx
        simp only [List.mem_singleton] at hl
        subst hl
        exact hnl x hx)
    simpa [joinSep] using h
  rw [importedLines_eq, hsp]
  simp only [List.map_cons, List.map_nil, List.filter_cons,
    List.filter_nil]
  obtain ⟨h1, h2⟩ := keep_data kw rest hkw hrest hhash
  rw [h1, if_pos h2]

/-- Importing a text that is a single directive line appending exactly
rule `r` yields a model whose rule list is `[r]`. -/
theorem importOptionsFile_single_rule (lu : List Str) (m : OptionsModel)
    (line : Str) (r : OptRule)
    (himl : importedLines line = [line])
    (hline : ∀ acc : ImportAcc, importLine lu acc line =
      { acc with newRules := acc.newRules ++ [r] }) :
    (importOptionsFile lu m line).rules = [r] := by
  obtain ⟨te, tmo, fts, gs, rs, cu⟩ := m
  unfold importOptionsFile
  rw [himl]
  simp only [List.foldl_cons, List.foldl_nil]
  rw [hline]
  simp

/-- One import step on an arbitrary five-token MAX/RESERVE line. -/
theorem importLine_max_reserve (lu : List Str) (acc : ImportAcc)
    (kw cnt feat tt tgt : Str)
    (hkw : jsUpper kw = str "MAX" ∨ jsUpper kw = str "RESERVE")
    (hkt : isToken kw) (hc : isToken cnt) (hf : isToken feat)
    (htt : isToken tt) (htg : isToken tgt) :
    importLine lu acc (joinSep [' '] [kw, cnt, feat, tt, tgt]) =
      { acc with newRules := acc.newRules ++
        [{ type := if jsUpper kw = str "MAX" then .MAX else .RESERVE,
           count := jsOrInt (parseIntJS cnt) 1,
           feature := feat.takeWhile (fun c => c ≠ ':'),
           groupOrUser := tgt,
           targetType := jsUpper tt,
           versionFilter := (swversionSearch feat).getD [] }] } := by
  have hsplit : splitWs (joinSep [' '] [kw, cnt, feat, tt, tgt]) =
      [kw, cnt, feat, tt, tgt] := by
    refine splitWs_join _ (fun x hx => ?_)
    simp only [List.mem_cons, List.not_mem_nil, or_false] at hx
    rcases hx with rfl | rfl | rfl | rfl | rfl
    exacts [hkt, hc, hf, htt, htg]
  unfold importLine
  rw [hsplit]
  simp only [List.getD_cons_zero, List.getD_cons_succ, List.length_cons,
    List.length_nil]
  rcases hkw with hkw | hkw <;> simp only [hkw] <;>
    rw [if_neg (by decide), if_neg (by decide), if_neg (by decide),
      if_pos (by decide)]

/-- One import step on an arbitrary four-token INCLUDE/EXCLUDE-family
line. -/
theorem importLine_include_family (lu : List Str) (acc : ImportAcc)
    (kw feat tt tgt : Str)
    (hkw : jsUpper kw = str "INCLUDE" ∨ jsUpper kw = str "EXCLUDE" ∨
      jsUpper kw = str "INCLUDE_BORROW" ∨
      jsUpper kw = str "EXCLUDE_BORROW")
    (hkt : isToken kw) (hf : isToken feat) (htt : isToken tt)
    (htg : isToken tgt) :
    importLine lu acc (joinSep [' '] [kw, feat, tt, tgt]) =
      { acc with newRules := acc.newRules ++
        [{ type := if jsUpper kw = str "INCLUDE" then .INCLUDE
                   else if jsUpper kw = str "EXCLUDE" then .EXCLUDE
                   else if jsUpper kw = str "INCLUDE_BORROW" then
                     .INCLUDE_BORROW
                   else .EXCLUDE_BORROW,
           count := 1,
           feature := feat.takeWhile (fun c => c ≠ ':'),
           groupOrUser := tgt,
           targetType := jsUpper tt,
           versionFilter := (swversionSearch feat).getD [] }] } := by
  have hsplit : splitWs (joinSep [' '] [kw, feat, tt, tgt]) =
      [kw, feat, tt, tgt] := by
    refine splitWs_join _ (fun x hx => ?_)
    simp only [List.mem_cons, List.not_mem_nil, or_false] at hx
    rcases hx with rfl | rfl | rfl | rfl
    exacts [hkt, hf, htt, htg]
  unfold importLine
  rw [hsplit]
  simp only [List.getD_cons_zero, List.getD_cons_succ, List.length_cons,
    List.length_nil]
  rcases hkw with hkw | hkw | hkw | hkw <;> simp only [hkw] <;>
    rw [if_neg (by decide), if_neg (by decide), if_neg (by decide),
      if_neg (by decide), if_pos (by decide)]

/-- C5 (amended): the seat-cap directive keyword the importer accepts
is `MAX`, not `CAP` (a `CAP …` line matches no branch and is ignored —
see the counterexample).  For every options-file line whose first
case-insensitively uppercased token is `MAX` or `RESERVE` followed by
count, feature, target kind and target tokens, import parses it into a
rule record of that kind with count `parseInt(count) || 1`, target
kind uppercased, and any `feature:SWVERSION=NNNN` suffix split into
separate feature and version-filter fields; likewise for the four
INCLUDE/EXCLUDE variants (count 1).  The last part makes the split
explicit: a colon-free feature with a digit-run suffix is cut exactly
at `:SWVERSION=`. -/
theorem C5_directive_line_parses (lu : List Str) (m : OptionsModel) :
    (∀ kw cnt feat tt tgt : Str,
      (jsUpper kw = str "MAX" ∨ jsUpper kw = str "RESERVE") →
      isToken cnt → isToken feat → isToken tt → isToken tgt →
      (importOptionsFile lu m
          (joinSep [' '] [kw, cnt, feat, tt, tgt])).rules =
        [{ type := if jsUpper kw = str "MAX" then .MAX else .RESERVE,
           count := jsOrInt (parseIntJS cnt) 1,
           feature := feat.takeWhile (fun c => c ≠ ':'),
           groupOrUser := tgt,
           targetType := jsUpper tt,
           versionFilter := (swversionSearch feat).getD [] }]) ∧
    (∀ kw feat tt tgt : Str,
      (jsUpper kw = str "INCLUDE" ∨ jsUpper kw = str "EXCLUDE" ∨
       jsUpper kw = str "INCLUDE_BORROW" ∨
       jsUpper kw = str "EXCLUDE_BORROW") →
      isToken feat → isToken tt → isToken tgt →
      (importOptionsFile lu m (joinSep [' '] [kw, feat, tt, tgt])).rules =
        [{ type := if jsUpper kw = str "INCLUDE" then .INCLUDE
                   else if jsUpper kw = str "EXCLUDE" then .EXCLUDE
                   else if jsUpper kw = str "INCLUDE_BORROW" then
                     .INCLUDE_BORROW
                   else .EXCLUDE_BORROW,
           count := 1,
           feature := feat.takeWhile (fun c => c ≠ ':'),
           groupOrUser := tgt,
           targetType := jsUpper tt,
           versionFilter := (swversionSearch feat).getD [] }]) ∧
    (∀ f v : Str, (∀ c ∈ f, c ≠ ':') → v ≠ [] →
      (∀ c ∈ v, isDigitChar c = true) →
      (f ++ (str ":SWVERSION=" ++ v)).takeWhile (fun c => c ≠ ':') = f ∧
      swversionSearch (f ++ (str ":SWVERSION=" ++ v)) = some v) := by
  refine ⟨?_, ?_, ?_⟩
  · intro kw cnt feat tt tgt hkw hc hf htt htg
    have hkt : isToken kw := by
      rcases hkw with h | h
      · exact isToken_of_jsUpper h (by decide) (by decide)
      · exact isToken_of_jsUpper h (by decide) (by decide)
    have hhash : ∀ c ∈ kw, c ≠ '#' := by
      rcases hkw with h | h
      · exact no_hash_of_jsUpper h (by decide)
      · exact no_hash_of_jsUpper h (by decide)
    refine importOptionsFile_single_rule lu m _ _
      (importedLines_single kw [cnt, feat, tt, tgt] hkt ?_ hhash)
      (fun acc =>
        importLine_max_reserve lu acc kw cnt feat tt tgt hkw hkt hc hf
          htt htg)
    intro x hx
    simp only [List.mem_cons, List.not_mem_nil, or_false] at hx
    rcases hx with rfl | rfl | rfl | rfl
    exacts [hc, hf, htt, htg]
  · intro kw feat tt tgt hkw hf htt htg
    have hkt : isToken kw := by
      rcases hkw with h | h | h | h <;>
        exact isToken_of_jsUpper h (by decide) (by decide)
    have hhash : ∀ c ∈ kw, c ≠ '#' := by
      rcases hkw with h | h | h | h <;>
        exact no_hash_of_jsUpper h (by decide)
    refine importOptionsFile_single_rule lu m _ _
      (importedLines_single kw [feat, tt, tgt] hkt ?_ hhash)
      (fun acc =>
        importLine_include_family lu acc kw feat tt tgt hkw hkt hf htt
          htg)
    intro x hx
    simp only [List.mem_cons, List.not_mem_nil, or_false] at hx
    rcases hx with rfl | rfl | rfl
    exacts [hf, htt, htg]
  · intro f v hf hv hd
    exact ⟨takeWhile_ne_colon_pre f v hf,
      swversionSearch_suffix f v hf hv hd⟩

theorem C5_directive_line_parses_witness :
    ((jsUpper (str "max") = str "MAX" ∨
        jsUpper (str "max") = str "RESERVE") ∧
      isToken (str "3") ∧ isToken (str "solidworks:SWVERSION=2024") ∧
      isToken (str "group") ∧ isToken (str "eng") ∧
      (importOptionsFile [] baseModel
          (joinSep [' '] [str "max", str "3",
            str "solidworks:SWVERSION=2024", str "group",
            str "eng"])).rules =
        [{ type := if jsUpper (str "max") = str "MAX" then .MAX
                   else .RESERVE,
           count := jsOrInt (parseIntJS (str "3")) 1,
           feature := (str "solidworks:SWVERSION=2024").takeWhile
             (fun c => c ≠ ':'),
           groupOrUser := str "eng",
           targetType := jsUpper (str "group"),
           versionFilter :=
             (swversionSearch (str "solidworks:SWVERSION=2024")).getD [] }]) ∧
    ((jsUpper (str "exclude_borrow") = str "INCLUDE" ∨
        jsUpper (str "exclude_borrow") = str "EXCLUDE" ∨
        jsUpper (str "exclude_borrow") = str "INCLUDE_BORROW" ∨
        jsUpper (str "exclude_borrow") = str "EXCLUDE_BORROW") ∧
      (importOptionsFile [] baseModel
          (joinSep [' '] [str "exclude_borrow", str "fB", str "user",
            str "bob"])).rules =
        [{ type := if jsUpper (str "exclude_borrow") = str "INCLUDE"
                   then .INCLUDE
                   else if jsUpper (str "exclude_borrow") =
                     str "EXCLUDE" then .EXCLUDE
                   else if jsUpper (str "exclude_borrow") =
                     str "INCLUDE_BORROW" then .INCLUDE_BORROW
                   else .EXCLUDE_BORROW,
           count := 1,
           feature := (str "fB").takeWhile (fun c => c ≠ ':'),
           groupOrUser := str "bob",
           targetType := jsUpper (str "user"),
           versionFilter := (swversionSearch (str "fB")).getD [] }]) ∧
    ((str "solidworks" ++ (str ":SWVERSION=" ++
        str "2024")).takeWhile (fun c => c ≠ ':') = str "solidworks" ∧
      swversionSearch (str "solidworks" ++ (str ":SWVERSION=" ++
        str "2024")) = some (str "2024")) :=
  ⟨⟨Or.inl (by decide), by decide, by decide, by decide, by decide,
    (C5_directive_line_parses [] baseModel).1 (str "max") (str "3")
      (str "solidworks:SWVERSION=2024") (str "group") (str "eng")
      (Or.inl (by decide)) (by decide) (by decide) (by decide)
      (by decide)⟩,
   ⟨Or.inr (Or.inr (Or.inr (by decide))),
    (C5_directive_line_parses [] baseModel).2.1 (str "exclude_borrow")
      (str "fB") (str "user") (str "bob")
      (Or.inr (Or.inr (Or.inr (by decide)))) (by decide) (by decide)
      (by decide)⟩,
   (C5_directive_line_parses [] baseModel).2.2 (str "solidworks")
     (str "2024") (by decide) (by decide) (by decide)⟩

/-! ### C9 — counts of imported seat-count rules -/

theorem importLine_model_rules (lu : List Str) (acc : ImportAcc) (l : Str) :
    (importLine lu acc l).model.rules = acc.model.rules := by
  unfold importLine
  simp only []
  split_ifs <;> rfl

theorem foldl_importLine_model_rules (lu : List Str) :
    ∀ (ls : List Str) (acc : ImportAcc),
      (ls.foldl (importLine lu) acc).model.rules = acc.model.rules := by
  intro ls
  induction ls with
  | nil => intro acc; rfl
  | cons l t ih =>
    intro acc
    rw [List.foldl_cons, ih, importLine_model_rules]

/-- Counts appended by one import step: whatever the dispatch does, a
rule appended with the MAX/RESERVE kinds has count
`jsOrInt (parseIntJS parts[1]) 1`, which is positive whenever the
token does not parse to a negative integer. -/
theorem importLine_rules_count_inv (lu : List Str) (acc : ImportAcc)
    (l : Str)
    (hacc : ∀ r ∈ acc.newRules,
      (r.type = .MAX ∨ r.type = .RESERVE) → 0 < r.count)
    (hl : 0 ≤ (parseIntJS ((splitWs l).getD 1 [])).getD 0) :
    ∀ r ∈ (importLine lu acc l).newRules,
      (r.type = .MAX ∨ r.type = .RESERVE) → 0 < r.count := by
  have hpos : 0 < jsOrInt (parseIntJS ((splitWs l).getD 1 [])) 1 := by
    rcases hp : parseIntJS ((splitWs l).getD 1 []) with _ | v
    · decide
    · rw [hp] at hl
      simp only [Option.getD_some] at hl
      unfold jsOrInt
      by_cases hv : v = 0
      · simp [hv]
      · simp only [hv, if_false]
        omega
  unfold importLine
  simp only []
  split_ifs <;>
    first
    | exact hacc
    | (intro r hr hty
       simp only [List.mem_append, List.mem_singleton] at hr
       rcases hr with hr | rfl
       · exact hacc r hr hty
       · first
         | exact hpos
         | exact (by decide : (0 : Int) < 1))

theorem foldl_importLine_count_inv (lu : List Str) :
    ∀ (ls : List Str) (acc : ImportAcc),
      (∀ r ∈ acc.newRules,
        (r.type = .MAX ∨ r.type = .RESERVE) → 0 < r.count) →
      (∀ l ∈ ls, 0 ≤ (parseIntJS ((splitWs l).getD 1 [])).getD 0) →
      ∀ r ∈ (ls.foldl (importLine lu) acc).newRules,
        (r.type = .MAX ∨ r.type = .RESERVE) → 0 < r.count := by
  intro ls
  induction ls with
  | nil => intro acc hacc _; exact hacc
  | cons l t ih =>
    intro acc hacc hls
    rw [List.foldl_cons]
    exact ih _
      (importLine_rules_count_inv lu acc l hacc
        (hls l (List.mem_cons_self _ _)))
      (fun x hx => hls x (List.mem_cons_of_mem _ hx))

/-- The rules of an import result: either the old rules (no rule line
found) or exactly the accumulated new rules. -/
theorem importOptionsFile_rules (lu : List Str) (m : OptionsModel)
    (text : Str) :
    (importOptionsFile lu m text).rules = m.rules ∨
    (importOptionsFile lu m text).rules =
      ((importedLines text).foldl (importLine lu)
        { model := m, foundTimeout := false, newGroups := [],
          newRules := [], newFeatureTimeouts := [],
          newCustomUsers := [] }).newRules := by
  unfold importOptionsFile
  simp only []
  split_ifs <;>
    simp [foldl_importLine_model_rules]

/-- C9 (amended): an imported MAX/RESERVE rule's count is
`parseInt(parts[1]) || 1`, so it is never zero but it is positive
only when no count token of the imported text parses to a negative
integer — negative counts pass straight through (see the
counterexample); under that no-negative-token condition, and when the
pre-existing rules already satisfy it, every MAX/RESERVE rule of the
resulting model has positive count. -/
theorem C9_imported_counts_positive (lu : List Str) (m : OptionsModel)
    (text : Str)
    (hm : ∀ r ∈ m.rules, (r.type = .MAX ∨ r.type = .RESERVE) → 0 < r.count)
    (htext : ∀ l ∈ importedLines text,
      0 ≤ (parseIntJS ((splitWs l).getD 1 [])).getD 0) :
    ∀ r ∈ (importOptionsFile lu m text).rules,
      (r.type = .MAX ∨ r.type = .RESERVE) → 0 < r.count := by
  rcases importOptionsFile_rules lu m text with h | h
  · rw [h]; exact hm
  · rw [h]
    exact foldl_importLine_count_inv lu (importedLines text) _
      (by intro r hr; cases hr) htext

/-- C9 counterexample: importing the line `MAX -2 solidworks GROUP eng`
stores a MAX rule whose count is the negative number −2 — the
`parseInt(parts[1]) || 1` fallback only catches `NaN` and `0`, not
negative values. -/
theorem C9_counterexample :
    (importOptionsFile [] baseModel
        (str "MAX -2 solidworks GROUP eng")).rules =
      [⟨.MAX, -2, str "solidworks", str "eng", str "GROUP", []⟩] ∧
    ¬ (0 < (-2 : Int)) := by
  decide

theorem C9_imported_counts_positive_witness :
    (∀ r ∈ baseModel.rules,
      (r.type = .MAX ∨ r.type = .RESERVE) → 0 < r.count) ∧
    (∀ l ∈ importedLines (str "MAX 2 fA GROUP eng"),
      0 ≤ (parseIntJS ((splitWs l).getD 1 [])).getD 0) ∧
    (∀ r ∈ (importOptionsFile [] baseModel
        (str "MAX 2 fA GROUP eng")).rules,
      (r.type = .MAX ∨ r.type = .RESERVE) → 0 < r.count) :=
  ⟨by decide, by decide,
    C9_imported_counts_positive [] baseModel (str "MAX 2 fA GROUP eng")
      (by decide) (by decide)⟩

end Dashboard
